import Mathlib

/-!
# Verification of the `kmodules/objectstore-api` storage facade (`pkg/blob/blob.go`)

A shallow embedding of the storage facade in `pkg/blob/blob.go`.  Go strings
are modelled as `List Char`; byte slices as `List Nat`.  The underlying
gocloud.dev bucket is modelled as a flat association list from full keys to
payloads, and `blob.PrefixedBucket` is modelled by explicitly prepending the
effective key space scope to every key an operation touches.  Listing
enumerates the store's keys in store order (the provider's native order is
abstracted away; every property proved below is order-insensitive).
All facade operations succeed at the transport level; the one failure mode of
a pure key-value store (key absent) is modelled with `Option`, and injected
per-key delete failures are modelled with an explicit failure set.
-/

set_option autoImplicit false

/-- Go strings (`string`), as lists of characters. -/
abbrev GoStr := List Char

/-- Go byte slices (`[]byte`). -/
abbrev Bytes := List Nat

/-! ## Go `path` / `strings` helpers used by `blob.go` -/

/-- Go `strings.Split(s, "/")` restricted to the single-character separator:
splits a string on `'/'`, keeping empty fields. -/
def splitSlash : GoStr → List GoStr
  | [] => [[]]
  | c :: rest =>
    match splitSlash rest with
    | [] => [[]]
    | s :: ss => if c = '/' then [] :: s :: ss else (c :: s) :: ss

/-- Inverse of `splitSlash`: interleave `'/'` between the fields. -/
def joinSegs : List GoStr → GoStr
  | [] => []
  | [s] => s
  | s :: ss => s ++ '/' :: joinSegs ss

/-- The segment-stack loop inside Go's `path.Clean`: `""` and `"."` segments
are dropped, `".."` pops the stack (or is kept when the path is not rooted
and there is nothing left to pop), every other segment is pushed.  The stack
is kept in reverse order. -/
def cleanFold (rooted : Bool) (st : List GoStr) : List GoStr → List GoStr
  | [] => st
  | s :: rest =>
    if s = [] ∨ s = ['.'] then cleanFold rooted st rest
    else if s = ['.', '.'] then
      match st with
      | t :: st' =>
        if t = ['.', '.'] then cleanFold rooted (s :: st) rest
        else cleanFold rooted st' rest
      | [] => if rooted then cleanFold rooted [] rest else cleanFold rooted [s] rest
    else cleanFold rooted (s :: st) rest

/-- Go `path.Clean`. -/
def pathClean (p : GoStr) : GoStr :=
  if p = [] then ['.']
  else
    let rooted := p.head? = some '/'
    let out := joinSegs ((cleanFold rooted [] (splitSlash p)).reverse)
    let out := if rooted then '/' :: out else out
    if out = [] then ['.'] else out

/-- Go `path.Join` for two elements: empty elements are skipped and the
result is cleaned (`path.Join` in `blob.go` is only ever applied to two
arguments, via `path.Join(b.prefix, dir)`). -/
def pathJoin (a b : GoStr) : GoStr :=
  if a = [] then (if b = [] then [] else pathClean b)
  else pathClean (a ++ '/' :: b)

/-- Go `strings.Trim(s, "/")`: strip leading and trailing `'/'` runs. -/
def trimSlash (s : GoStr) : GoStr :=
  ((s.dropWhile (· = '/')).reverse.dropWhile (· = '/')).reverse

/-- Go `strings.TrimSuffix(s, "/")`: drop one trailing `'/'` if present. -/
def trimSuffixSlash (s : GoStr) : GoStr :=
  if s.getLast? = some '/' then s.dropLast else s

/-- Go `path.Split`: split after the final slash, returning
`(dir, file)` with `dir` keeping the trailing slash. -/
def pathSplit (p : GoStr) : GoStr × GoStr :=
  ((p.reverse.dropWhile (· ≠ '/')).reverse, (p.reverse.takeWhile (· ≠ '/')).reverse)

/-! ## The underlying bucket: a flat key/value store -/

/-- The underlying flat object store (one physical bucket): an association
list from full keys to payloads.  Write order is kept but never relied on. -/
abbrev Store := List (GoStr × Bytes)

/-- Read a key (`bucket.NewReader` + `io.ReadAll`); `none` is gocloud's
NotFound error. -/
def storeLookup : Store → GoStr → Option Bytes
  | [], _ => none
  | (k', v') :: t, k => if k' = k then some v' else storeLookup t k

/-- Write a key (`bucket.NewWriter` + `Write` + `Close`): replaces the
payload if the key exists, otherwise appends the new object. -/
def storeUpsert : Store → GoStr → Bytes → Store
  | [], k, v => [(k, v)]
  | (k', v') :: t, k, v => if k' = k then (k, v) :: t else (k', v') :: storeUpsert t k v

/-- Delete a key (`bucket.Delete`). -/
def storeDelete (s : Store) (k : GoStr) : Store :=
  s.filter (fun kv => decide (kv.1 ≠ k))

/-- The keys currently present in the store. -/
def storeKeys (s : Store) : List GoStr := s.map Prod.fst

/-! ## Bucket opening and the prefix-scoping decorator (`openBucketWithDebug`) -/

/-- The result of `openBucketWithDebug`: either the raw opened bucket, or the
bucket wrapped in `blob.PrefixedBucket(bucket, suffix)`. -/
inductive BucketView where
  | raw : BucketView
  | scoped : GoStr → BucketView
deriving DecidableEq

/-- The suffix `strings.Trim(path.Join(b.prefix, dir), "/") + "/"`
(`blob.go:447`). -/
def bucketSuffix (pfx dir : GoStr) : GoStr :=
  trimSlash (pathJoin pfx dir) ++ ['/']

/-- Lines `blob.go:447-451`: compute the suffix; if it equals the path separator
return the raw bucket, otherwise wrap in the prefix-scoping decorator. -/
def openBucketView (pfx dir : GoStr) : BucketView :=
  let suffix := bucketSuffix pfx dir
  if suffix = ['/'] then .raw else .scoped suffix

/-- The full underlying key a bucket view stores a relative key under:
`blob.PrefixedBucket` prepends its prefix, the raw bucket does not. -/
def viewKey : BucketView → GoStr → GoStr
  | .raw, k => k
  | .scoped e, k => e ++ k

/-- The effective key-space scope of `openBucket(dir)` on a facade with
backend path `pfx`: `[]` for the raw bucket, the suffix otherwise. -/
def effPfx (pfx dir : GoStr) : GoStr :=
  match openBucketView pfx dir with
  | .raw => []
  | .scoped e => e

/-- Relative keys returned by an undelimited `bucket.List(nil)` on the opened
(possibly prefix-scoped) bucket: every stored key under the scope, with the
scope stripped (`blob.PrefixedBucket` strips its prefix from listed keys). -/
def flatList (s : Store) (e : GoStr) : List GoStr :=
  (storeKeys s).filterMap fun k =>
    if e.isPrefixOf k then some (k.drop e.length) else none

/-! ## Facade operations (`*Blob` methods) -/

/-- Method `Blob.Get` (`blob.go:215-234`): split the path, open the bucket on the
directory part, read the leaf. -/
def Blob.Get (pfx : GoStr) (s : Store) (p : GoStr) : Option Bytes :=
  let pr := pathSplit p
  storeLookup s (effPfx pfx pr.1 ++ pr.2)

/-- Method `Blob.Exists` (`blob.go:205-213`). -/
def Blob.Exists (pfx : GoStr) (s : Store) (p : GoStr) : Bool :=
  let pr := pathSplit p
  (storeLookup s (effPfx pfx pr.1 ++ pr.2)).isSome

/-- Method `Blob.Upload` (`blob.go:236-260`): split the path, open the bucket on the
directory part, write the payload at the leaf. -/
def Blob.Upload (pfx : GoStr) (s : Store) (p : GoStr) (data : Bytes) : Store :=
  let pr := pathSplit p
  storeUpsert s (effPfx pfx pr.1 ++ pr.2) data

/-- Helper `checkIfObjectFile` (`blob.go:410-415`): a listed object is a file when
it is not a directory entry, its key is nonempty and does not end in `'/'`
(undelimited listings never flag entries as directories). -/
def checkIfObjectFile (k : GoStr) : Bool :=
  decide (k ≠ []) && decide (k.getLast? ≠ some '/')

/-- Method `Blob.List` (`blob.go:292-318`): undelimited listing of the scoped
bucket; every file entry is fetched via `Get(path.Join(dir, key))`; the
first failed fetch aborts with an error (`none`). -/
def Blob.ListOp (pfx : GoStr) (s : Store) (dir : GoStr) : Option (List Bytes) :=
  ((flatList s (effPfx pfx dir)).filter checkIfObjectFile).mapM
    fun rel => Blob.Get pfx s (pathJoin dir rel)

/-- Method `Blob.SetPathAsDir` (`blob.go:525-546`): open the bucket on the whole
path, append a trailing `'/'` to the path if absent, and write a zero-byte
object at that key of the scoped bucket. -/
def Blob.SetPathAsDir (pfx : GoStr) (s : Store) (p : GoStr) : Store :=
  let e := effPfx pfx p
  let p' := if p.getLast? = some '/' then p else p ++ ['/']
  storeUpsert s (e ++ p') []

/-! ## `ListDirN`: depth-bounded directory traversal (`blob.go:320-370`) -/

/-- One delimited-listing entry derived from a stored relative key: gocloud's
`List` with `Delimiter: "/"` collapses every key extending `lp` past a
further `'/'` into the pseudo-directory `lp ++ firstSegment ++ "/"`; keys
with no further `'/'` are plain objects and are ignored by the walk (the
walk only acts on `IsDir` entries). -/
def dirEntryOf (lp k : GoStr) : Option GoStr :=
  if lp.isPrefixOf k then
    let rest := k.drop lp.length
    if '/' ∈ rest then some (lp ++ rest.takeWhile (· ≠ '/') ++ ['/']) else none
  else none

/-- Order-preserving removal of duplicates (keeps first occurrences), the
way a delimited listing reports each collapsed pseudo-directory once. -/
def dedupFirst (seen : List GoStr) : List GoStr → List GoStr
  | [] => []
  | x :: xs => if x ∈ seen then dedupFirst seen xs else x :: dedupFirst (x :: seen) xs

/-- The `IsDir` entries of one delimited listing of the scoped key list `ks`
under listing prefix `lp`. -/
def dirEntries (ks : List GoStr) (lp : GoStr) : List GoStr :=
  dedupFirst [] (ks.filterMap (dirEntryOf lp))

/-- The recursive `walk` closure of `ListDirN` (`blob.go:340-364`): list with
prefix and delimiter, append every directory entry, and recurse into it while
`maxDepth < 0 || curDepth < maxDepth`.  Recursion is driven by `fuel`; every
recursive call strictly lengthens the listing prefix, which stays a prefix of
some stored key, so any fuel beyond the longest key is inexhaustible. -/
def walkAux (ks : List GoStr) (maxDepth : Int) : Nat → GoStr → Int → List GoStr
  | 0, _, _ => []
  | fuel + 1, lp, cur =>
    (dirEntries ks lp).flatMap fun d =>
      d :: (if maxDepth < 0 ∨ cur < maxDepth then walkAux ks maxDepth fuel d (cur + 1) else [])

/-- Fuel that the walk can never exhaust: one past the longest listed key. -/
def fuelOf (ks : List GoStr) : Nat :=
  ks.foldr (fun k m => max k.length m) 0 + 1

/-- Number of `'/'` characters: the nesting depth of a directory-marker key
(`"a/"` has one, `"a/b/"` two, …). -/
def slashCount (l : GoStr) : Nat := l.count '/'

/-- Method `Blob.ListDirN` (`blob.go:321-370`): open the bucket on `dir`, default
the variadic depth to `0`, rebuild the listing prefix from `dir`
(`strings.TrimSuffix(dir, "/")` plus `"/"` when nonempty) and run the walk
from depth `0`. -/
def Blob.ListDirN (pfx : GoStr) (s : Store) (dir : GoStr) (depth : List Int) : List GoStr :=
  let ks := flatList s (effPfx pfx dir)
  let maxDepth : Int := match depth with | [] => 0 | d :: _ => d
  let relPfx := let t := trimSuffixSlash dir; if t = [] then [] else t ++ ['/']
  walkAux ks maxDepth (fuelOf ks) relPfx 0

/-! ## `Delete` and `deleteDir` (`blob.go:372-408`) -/

/-- Leaf deletion (`Delete` with `isDir = false`, `blob.go:376-382`): split
the path, open the bucket on the directory part, delete the leaf.  `fail` is
the set of underlying keys whose provider-side delete fails; a failed delete
leaves the store unchanged and reports the key as the error. -/
def Blob.deleteLeaf (pfx : GoStr) (fail : List GoStr) (s : Store) (p : GoStr) :
    Store × Option GoStr :=
  let pr := pathSplit p
  let key := effPfx pfx pr.1 ++ pr.2
  if key ∈ fail then (s, some key) else (storeDelete s key, none)

/-- Helper `deleteDir` (`blob.go:385-408`): open the bucket on `dir`, enumerate the
undelimited listing `bucket.List(nil)`, and for each entry call
`Delete(fmt.Sprintf("%s/%s", dir, key), false)`, collecting per-entry
failures; the collected failures form the aggregate error (`[]` is the `nil`
aggregate). -/
def Blob.deleteDir (pfx : GoStr) (fail : List GoStr) (s : Store) (dir : GoStr) :
    Store × List GoStr :=
  (flatList s (effPfx pfx dir)).foldl
    (fun acc rel =>
      let res := Blob.deleteLeaf pfx fail acc.1 (dir ++ '/' :: rel)
      match res.2 with
      | some err => (res.1, acc.2 ++ [err])
      | none => (res.1, acc.2))
    (s, [])

/-- Method `Blob.Delete` (`blob.go:372-383`): dispatch on `isDir`. -/
def Blob.Delete (pfx : GoStr) (fail : List GoStr) (s : Store) (p : GoStr) (isDir : Bool) :
    Store × List GoStr :=
  if isDir then Blob.deleteDir pfx fail s p
  else
    let r := Blob.deleteLeaf pfx fail s p
    (r.1, r.2.toList)

/-! ## Upload writer options and error priority (`blob.go:244-259`) -/

/-- The fields of `blob.WriterOptions` that `Upload` sets. -/
structure WriterOptions where
  contentType : GoStr
  disableContentTypeDetection : Bool
deriving DecidableEq

/-- The writer options `Upload` passes to `bucket.NewWriter`
(`blob.go:244-247`): the caller-supplied content type, with content-type
detection disabled. -/
def uploadWriterOptions (contentType : GoStr) : WriterOptions :=
  { contentType := contentType, disableContentTypeDetection := true }

/-- The error `Upload` returns given the outcomes of `w.Write` and `w.Close`
(`blob.go:251-259`): the write error if any, else the close error. -/
def uploadResult (writeErr closeErr : Option GoStr) : Option GoStr :=
  match writeErr with
  | some e => some e
  | none =>
    match closeErr with
    | some e => some e
    | none => closeErr

/-! ## `getS3Config` (`blob.go:462-504`) -/

/-- One AWS `config.LoadOptions` entry appended by `getS3Config`. -/
inductive LoadOption where
  | baseEndpoint : GoStr → LoadOption
  | region : GoStr → LoadOption
  | clientLogMode : LoadOption
  | credentialsProvider : GoStr → GoStr → LoadOption
  | httpClient : Bool → GoStr → LoadOption
deriving DecidableEq

/-- The fields of `api.S3Spec` that `getS3Config` reads. -/
structure S3Spec where
  endpoint : GoStr
  region : GoStr
  insecureTLS : Bool

/-- A resolved storage secret: key/value credential data. -/
abbrev SecretData := List (GoStr × GoStr)

def secretGet (sec : SecretData) (k : GoStr) : Option GoStr :=
  (sec.find? (fun kv => kv.1 = k)).map Prod.snd

def awsAccessKeyId : GoStr := "AWS_ACCESS_KEY_ID".toList
def awsSecretAccessKey : GoStr := "AWS_SECRET_ACCESS_KEY".toList
def caCertData : GoStr := "CA_CERT_DATA".toList

/-- Function `getS3Config` (`blob.go:462-504`) as the list of load options it builds,
or the name of the missing secret key on configuration error.  The endpoint
override is only appended when a secret is present (`blob.go:464-468`); the
region override is appended whenever the region is nonempty (`blob.go:469-471`).
TLS material is carried symbolically in the `httpClient` option (PEM parsing
of the CA bundle is outside the model and assumed well-formed). -/
def getS3Config (secret : Option SecretData) (s3 : S3Spec) (debug : Bool) :
    Except GoStr (List LoadOption) :=
  let opts : List LoadOption := []
  let opts := match secret with
    | some _ => if s3.endpoint ≠ [] then opts ++ [.baseEndpoint s3.endpoint] else opts
    | none => opts
  let opts := if s3.region ≠ [] then opts ++ [.region s3.region] else opts
  let opts := if debug then opts ++ [.clientLogMode] else opts
  match secret with
  | none => .ok opts
  | some sec =>
    match secretGet sec awsAccessKeyId with
    | none => .error awsAccessKeyId
    | some id =>
      match secretGet sec awsSecretAccessKey with
      | none => .error awsSecretAccessKey
      | some key =>
        let opts := opts ++ [.credentialsProvider id key]
        let ca := (secretGet sec caCertData).getD []
        let needsTLS := s3.insecureTLS || decide (ca ≠ [])
        let opts := if needsTLS then opts ++ [.httpClient s3.insecureTLS ca] else opts
        .ok opts

/-! ## Statement-level definitions -/

/-- The effective prefix exactly as the specification words it:
`effectivePrefix = trim(join(backendPrefix, requestedDir), "/") + "/"`.
Stated from the spec, to be compared with `bucketSuffix` from the source. -/
def effectivePrefixSpec (backendPfx requestedDir : GoStr) : GoStr :=
  trimSlash (pathJoin backendPfx requestedDir) ++ ['/']

/-- A plain path segment: nonempty, not `"."`, not `".."`, slash-free. -/
def GoodSeg (s : GoStr) : Prop :=
  s ≠ [] ∧ s ≠ ['.'] ∧ s ≠ ['.', '.'] ∧ '/' ∉ s

instance (s : GoStr) : Decidable (GoodSeg s) := by unfold GoodSeg; infer_instance

/-- No `".."` segment anywhere in the string. -/
def NoDotDot (x : GoStr) : Prop := ['.', '.'] ∉ splitSlash x

instance (x : GoStr) : Decidable (NoDotDot x) := by unfold NoDotDot; infer_instance

/-- All slash-separated segments of `x` are plain segments. -/
def GoodSegs (x : GoStr) : Prop := ∀ s ∈ splitSlash x, GoodSeg s

instance (x : GoStr) : Decidable (GoodSegs x) := by unfold GoodSegs; infer_instance

/-- The segments `path.Clean` keeps when no `".."` is present: everything
except empty and `"."` fields. -/
def keepSeg (s : GoStr) : Bool := !(decide (s = []) || decide (s = ['.']))

def keptSegs (x : GoStr) : List GoStr := (splitSlash x).filter keepSeg

/-- The underlying key one `deleteDir` entry resolves to: entry `rel` is
re-rooted as `dir ++ "/" ++ rel`, split, and re-scoped. -/
def deleteKeyOf (pfx dir rel : GoStr) : GoStr :=
  let pr := pathSplit (dir ++ '/' :: rel)
  effPfx pfx pr.1 ++ pr.2

/-- The underlying keys `deleteDir` attempts to delete, in listing order. -/
def attemptedKeys (pfx : GoStr) (s : Store) (dir : GoStr) : List GoStr :=
  (flatList s (effPfx pfx dir)).map (deleteKeyOf pfx dir)

/-! ## Sanity checks of the path model against Go behavior -/

example : pathClean "a/../b/".toList = "b".toList := by decide
example : pathClean "a/./b//c".toList = "a/b/c".toList := by decide
example : pathClean "/../a".toList = "/a".toList := by decide
example : pathClean "".toList = ".".toList := by decide
example : pathClean "a/..".toList = ".".toList := by decide
example : pathJoin "a".toList "../b/f/".toList = "b/f".toList := by decide
example : pathSplit "data/sample.txt".toList = ("data/".toList, "sample.txt".toList) := by decide
example : pathSplit "f.txt".toList = ([], "f.txt".toList) := by decide
example : trimSlash "/a/b/".toList = "a/b".toList := by decide
example : bucketSuffix [] [] = ['/'] := by decide
example : effPfx "unitTest".toList "data/".toList = "unitTest/data/".toList := by decide
example : effPfx [] [] = [] := by decide

example :
    Blob.SetPathAsDir [] [] "empty".toList = [("empty/empty/".toList, [])] := by decide
example :
    Blob.ListDirN [] [("empty/empty/".toList, [])] [] [0] = ["empty/".toList] := by decide
example :
    Blob.ListDirN [] [("data/x/f.txt".toList, [0])] "data".toList [-1] = [] := by decide
example :
    Blob.ListDirN [] [("a/b/c/f.txt".toList, [0])] [] [1]
      = ["a/".toList, "a/b/".toList] := by decide
example :
    Blob.ListDirN [] [("a/b/c/f.txt".toList, [0])] [] [-1]
      = ["a/".toList, "a/b/".toList, "a/b/c/".toList] := by decide
example :
    (Blob.Delete [] [] [("d/a.txt".toList, [1]), ("d/sub/b.txt".toList, [2])]
      "d".toList true) = ([], []) := by decide
example :
    Blob.Get "b".toList
      (Blob.Upload "a".toList [] "../b/f.txt".toList [7]) "f.txt".toList = some [7] := by decide

/-! ## C1: upload/get round-trip -/

theorem storeLookup_upsert_self (s : Store) (k : GoStr) (v : Bytes) :
    storeLookup (storeUpsert s k v) k = some v := by
  induction s with
  | nil => simp [storeUpsert, storeLookup]
  | cons kv t ih =>
    obtain ⟨k', v'⟩ := kv
    by_cases h : k' = k <;> simp [storeUpsert, storeLookup, h, ih]

/-- C1: for every facade path prefix, store, path `p` and payload, on a
facade whose bucket operations succeed, `Upload(p, data, "")` followed by
`Get(p)` returns exactly `data`: both operations scope the bucket to the same
directory part of `p` and address the same leaf, so the freshly written
object is read back unchanged. -/
theorem upload_get_roundtrip (pfx : GoStr) (s : Store) (p : GoStr) (data : Bytes) :
    Blob.Get pfx (Blob.Upload pfx s p data) p = some data := by
  simp [Blob.Get, Blob.Upload, storeLookup_upsert_self]

/-! ## C10: variadic depth defaults to 0 -/

/-- C10: `ListDirN(dir)` with no depth argument behaves exactly like
`ListDirN(dir, 0)`: the variadic depth list defaults the depth budget to
`0`, so only the first listing level's directory entries are walked. -/
theorem listDirN_default_depth (pfx : GoStr) (s : Store) (dir : GoStr) :
    Blob.ListDirN pfx s dir [] = Blob.ListDirN pfx s dir [0] := rfl

/-! ## C7: upload writer options and error priority -/

/-- C7: `Upload` opens its write stream with content-type detection disabled
and the content type exactly as supplied by the caller; a write error is
returned even when the close also fails (write error takes priority), a
close error is returned when the write succeeded, and no error is returned
when both succeed. -/
theorem upload_options_and_error_priority (ct : GoStr) (we ce : Option GoStr) (e : GoStr) :
    (uploadWriterOptions ct).disableContentTypeDetection = true ∧
    (uploadWriterOptions ct).contentType = ct ∧
    uploadResult (some e) ce = some e ∧
    uploadResult none ce = ce ∧
    uploadResult we none = we := by
  refine ⟨rfl, rfl, rfl, ?_, ?_⟩
  · cases ce <;> rfl
  · cases we <;> rfl

/-! ## C5: effective prefix computation of `openBucketWithDebug` -/

/-- C5: opening a bucket computes exactly the spec's
`effectivePrefix = trim(join(backendPrefix, requestedDir), "/") + "/"`; when
that normalizes to the lone separator the raw bucket is returned (keys pass
through unchanged), and otherwise the bucket is wrapped in the prefix-scoping
decorator, which prepends the effective prefix to every key. -/
theorem open_bucket_effective_scope (pfx dir : GoStr) :
    bucketSuffix pfx dir = effectivePrefixSpec pfx dir ∧
    (openBucketView pfx dir = .raw ↔ effectivePrefixSpec pfx dir = ['/']) ∧
    ∀ k, viewKey (openBucketView pfx dir) k =
      if effectivePrefixSpec pfx dir = ['/'] then k
      else effectivePrefixSpec pfx dir ++ k := by
  have hbe : bucketSuffix pfx dir = effectivePrefixSpec pfx dir := rfl
  by_cases h : effectivePrefixSpec pfx dir = ['/']
  · exact ⟨hbe, by simp [openBucketView, hbe, h], by
      intro k; simp [openBucketView, hbe, h, viewKey]⟩
  · exact ⟨hbe, by simp [openBucketView, hbe, h], by
      intro k; simp [openBucketView, hbe, h, viewKey]⟩

/-! ## C2 (counterexample): prefix isolation is breached by `..` paths -/

/-- C2 is false as stated: facade A with prefix `"a"` and facade B with
prefix `"b"` share the underlying bucket; `A.Upload("../b/f.txt", [7])`
travels through `path.Join("a", "../b/")`, which cleans to `"b"`, so the
write lands on underlying key `"b/f.txt"` and `B.Get("f.txt")` — which saw
nothing before the write — now observes A's data. -/
theorem prefix_isolation_breached_by_dotdot :
    Blob.Get "b".toList [] "f.txt".toList = none ∧
    Blob.Get "b".toList
      (Blob.Upload "a".toList [] "../b/f.txt".toList [7]) "f.txt".toList = some [7] := by
  decide

/-! ## C3 (counterexample): `Delete(p, true)` deletes nested keys too -/

/-- C3 is false as stated: `deleteDir` iterates `bucket.List(nil)` — an
undelimited, depth-unbounded listing — so `Delete("d", true)` on a store
holding `d/a.txt` and the nested `d/sub/b.txt` deletes the nested key as
well, not only the immediate listing level. -/
theorem delete_dir_removes_nested_key :
    storeLookup [("d/a.txt".toList, [1]), ("d/sub/b.txt".toList, [2])]
      "d/sub/b.txt".toList = some [2] ∧
    storeLookup
      (Blob.Delete [] [] [("d/a.txt".toList, [1]), ("d/sub/b.txt".toList, [2])]
        "d".toList true).1
      "d/sub/b.txt".toList = none := by
  decide

/-! ## C4 (counterexample): `ListDirN` on a nonempty dir misses the subtree -/

/-- C4 is false as stated: `ListDirN` opens the bucket scoped to `dir` and
then lists with prefix `dir` again inside that scope, so for a nonempty
`dir` the traversal is rooted at `dir/dir`; with unbounded depth over a
store whose only key is `data/x/f.txt`, `ListDirN("data", -1)` returns no
entry at all even though the directory subtree of `data` is nonempty. -/
theorem listDirN_nonroot_subtree_missed :
    Blob.ListDirN [] [("data/x/f.txt".toList, [0])] "data".toList [-1] = [] ∧
    "data/x/f.txt".toList ∈ storeKeys [("data/x/f.txt".toList, [0])] := by
  decide

/-! ## C6 (counterexample): the directory marker's underlying key -/

/-- C6 is false as stated: `SetPathAsDir("empty")` opens the bucket scoped
to `"empty"` and then writes the key `"empty/"` inside that scope, so the
underlying bucket gains the key `empty/empty/` — there is no object at the
claimed key `empty/`. -/
theorem set_path_as_dir_key_is_doubled :
    storeLookup (Blob.SetPathAsDir [] [] "empty".toList) "empty/".toList = none ∧
    storeKeys (Blob.SetPathAsDir [] [] "empty".toList) = ["empty/empty/".toList] := by
  decide

/-! ## C8: S3 region/endpoint overrides -/

/-- C8 is false as stated: when no storage secret is configured, a nonempty
endpoint on the S3 descriptor is not passed as an override — the endpoint
append is nested inside the `b.secret != nil` check — so the load options
come back empty. -/
theorem s3_endpoint_requires_secret :
    getS3Config none ⟨"https://s3.example.com".toList, [], false⟩ false
      = Except.ok [] ∧
    "https://s3.example.com".toList ≠ ([] : GoStr) :=
  ⟨rfl, by decide⟩

/-- C8 as amended: whenever the region field is nonempty it is passed as an
explicit override (and only with that value); the endpoint field is passed
as an explicit override exactly when it is nonempty AND a storage secret is
present; when a field is absent (or, for the endpoint, when no secret is
configured) no corresponding override is appended, leaving the default
discovery chain unmodified for it. -/
theorem s3_overrides (secret : Option SecretData) (s3 : S3Spec) (debug : Bool)
    (opts : List LoadOption) (h : getS3Config secret s3 debug = .ok opts) :
    ((∃ e, LoadOption.baseEndpoint e ∈ opts) ↔ secret.isSome = true ∧ s3.endpoint ≠ []) ∧
    (∀ e, LoadOption.baseEndpoint e ∈ opts → e = s3.endpoint) ∧
    ((∃ r, LoadOption.region r ∈ opts) ↔ s3.region ≠ []) ∧
    (∀ r, LoadOption.region r ∈ opts → r = s3.region) := by
  cases secret with
  | none =>
    simp only [getS3Config] at h
    split_ifs at h <;> cases h <;>
      simp_all [List.mem_append]
  | some sec =>
    simp only [getS3Config] at h
    cases hid : secretGet sec awsAccessKeyId with
    | none => rw [hid] at h; cases h
    | some id =>
      rw [hid] at h
      cases hkey : secretGet sec awsSecretAccessKey with
      | none => rw [hkey] at h; cases h
      | some key =>
        rw [hkey] at h
        split_ifs at h <;> cases h <;>
          simp_all [List.mem_append]

/-- Witness for the amended C8: a facade with a secret and both fields set
gets both overrides, with exactly the configured values. -/
theorem s3_overrides_witness :
    ((∃ e, LoadOption.baseEndpoint e ∈
        [LoadOption.baseEndpoint "ep".toList, LoadOption.region "r".toList,
         LoadOption.credentialsProvider "id".toList "k".toList]) ↔
      (some [(awsAccessKeyId, "id".toList), (awsSecretAccessKey, "k".toList)]).isSome = true ∧
        ("ep".toList : GoStr) ≠ []) ∧
    (∀ e, LoadOption.baseEndpoint e ∈
        [LoadOption.baseEndpoint "ep".toList, LoadOption.region "r".toList,
         LoadOption.credentialsProvider "id".toList "k".toList] → e = "ep".toList) ∧
    ((∃ r, LoadOption.region r ∈
        [LoadOption.baseEndpoint "ep".toList, LoadOption.region "r".toList,
         LoadOption.credentialsProvider "id".toList "k".toList]) ↔ ("r".toList : GoStr) ≠ []) ∧
    (∀ r, LoadOption.region r ∈
        [LoadOption.baseEndpoint "ep".toList, LoadOption.region "r".toList,
         LoadOption.credentialsProvider "id".toList "k".toList] → r = "r".toList) :=
  s3_overrides (some [(awsAccessKeyId, "id".toList), (awsSecretAccessKey, "k".toList)])
    ⟨"ep".toList, "r".toList, false⟩ false _ rfl

/-! ## C9: `deleteDir` aggregates per-entry failures -/

theorem storeLookup_filter_out (ks : List GoStr) (k : GoStr) (hk : k ∈ ks) :
    ∀ s : Store, storeLookup (s.filter fun kv => decide (kv.1 ∉ ks)) k = none := by
  intro s
  induction s with
  | nil => rfl
  | cons kv t ih =>
    by_cases hmem : kv.1 ∈ ks
    · simpa [List.filter_cons, hmem] using ih
    · have hne : kv.1 ≠ k := fun he => hmem (he ▸ hk)
      simpa [List.filter_cons, hmem, storeLookup, hne] using ih

theorem deleteDir_foldl_eq (pfx : GoStr) (fail : List GoStr) (dir : GoStr) :
    ∀ (rels : List GoStr) (s : Store) (errs : List GoStr),
      rels.foldl
        (fun acc rel =>
          let res := Blob.deleteLeaf pfx fail acc.1 (dir ++ '/' :: rel)
          match res.2 with
          | some err => (res.1, acc.2 ++ [err])
          | none => (res.1, acc.2))
        (s, errs)
      = (s.filter fun kv =>
            decide (kv.1 ∉ ((rels.map (deleteKeyOf pfx dir)).filter fun k => decide (k ∉ fail))),
         errs ++ ((rels.map (deleteKeyOf pfx dir)).filter fun k => decide (k ∈ fail))) := by
  intro rels
  induction rels with
  | nil => intro s errs; simp
  | cons rel rels ih =>
    intro s errs
    have hleaf : ∀ st : Store,
        Blob.deleteLeaf pfx fail st (dir ++ '/' :: rel)
          = if deleteKeyOf pfx dir rel ∈ fail then (st, some (deleteKeyOf pfx dir rel))
            else (storeDelete st (deleteKeyOf pfx dir rel), none) := fun _ => rfl
    by_cases hfail : deleteKeyOf pfx dir rel ∈ fail
    · simp only [List.foldl_cons, hleaf, if_pos hfail]
      rw [ih]
      simp [hfail, List.filter_cons]
    · simp only [List.foldl_cons, hleaf, if_neg hfail]
      rw [ih]
      refine Prod.ext ?_ (by simp [hfail, List.filter_cons])
      simp only [storeDelete, List.filter_filter, hfail, List.filter_cons, decide_not]
      refine List.filter_congr ?_
      intro kv _
      by_cases hk : kv.1 = deleteKeyOf pfx dir rel <;>
        simp [hk, hfail, List.mem_cons]

/-- C9: during `Delete(p, true)` a failing per-entry delete does not abort
the sweep: the returned aggregate is exactly the failing attempted keys in
listing order, it is nil precisely when no attempted delete failed, and
every non-failing attempted key is deleted even when other entries fail. -/
theorem delete_dir_aggregates_errors (pfx : GoStr) (fail : List GoStr) (s : Store)
    (dir : GoStr) :
    (Blob.Delete pfx fail s dir true).2
        = (attemptedKeys pfx s dir).filter (fun k => decide (k ∈ fail)) ∧
    ((Blob.Delete pfx fail s dir true).2 = [] ↔
      ∀ k ∈ attemptedKeys pfx s dir, k ∉ fail) ∧
    ∀ k ∈ attemptedKeys pfx s dir, k ∉ fail →
      storeLookup (Blob.Delete pfx fail s dir true).1 k = none := by
  have hfold := deleteDir_foldl_eq pfx fail dir (flatList s (effPfx pfx dir)) s []
  have hdel : Blob.Delete pfx fail s dir true
      = (s.filter fun kv =>
            decide (kv.1 ∉ ((attemptedKeys pfx s dir).filter fun k => decide (k ∉ fail))),
         (attemptedKeys pfx s dir).filter fun k => decide (k ∈ fail)) := by
    simpa [Blob.Delete, Blob.deleteDir, attemptedKeys] using hfold
  refine ⟨by rw [hdel], ?_, ?_⟩
  · rw [hdel]
    simp only [List.filter_eq_nil_iff, decide_eq_true_eq]
  · intro k hk hfailk
    rw [hdel]
    exact storeLookup_filter_out _ k (by simp [List.mem_filter, hk, hfailk]) s

/-- Witness for C9: with one bad key in a two-entry directory, the aggregate
names exactly the bad key and the good sibling is still deleted. -/
theorem delete_dir_aggregates_errors_witness :
    (Blob.Delete [] ["d/bad.txt".toList]
        [("d/a.txt".toList, [1]), ("d/bad.txt".toList, [2])] "d".toList true).2
      = ["d/bad.txt".toList] ∧
    storeLookup
      (Blob.Delete [] ["d/bad.txt".toList]
        [("d/a.txt".toList, [1]), ("d/bad.txt".toList, [2])] "d".toList true).1
      "d/a.txt".toList = none :=
  ⟨by decide,
    (delete_dir_aggregates_errors [] ["d/bad.txt".toList]
        [("d/a.txt".toList, [1]), ("d/bad.txt".toList, [2])] "d".toList).2.2
      "d/a.txt".toList (by decide) (by decide)⟩

/-! ## Path lemma library: `splitSlash`, `joinSegs`, `takeWhile`/`dropWhile` -/

theorem splitSlash_ne_nil : ∀ l : GoStr, splitSlash l ≠ []
  | [] => by simp [splitSlash]
  | c :: rest => by
    have h := splitSlash_ne_nil rest
    unfold splitSlash
    rcases hs : splitSlash rest with _ | ⟨s, ss⟩
    · exact absurd hs h
    · by_cases hc : c = '/' <;> simp [hc]

theorem splitSlash_append : ∀ xs ys : GoStr,
    splitSlash (xs ++ '/' :: ys) = splitSlash xs ++ splitSlash ys
  | [], ys => by
    rcases hs : splitSlash ys with _ | ⟨s, ss⟩
    · exact absurd hs (splitSlash_ne_nil ys)
    · simp [splitSlash, hs]
  | c :: xs, ys => by
    have ih := splitSlash_append xs ys
    rcases hs : splitSlash xs with _ | ⟨s, ss⟩
    · exact absurd hs (splitSlash_ne_nil xs)
    · by_cases hc : c = '/' <;>
        simp [splitSlash, ih, hs, hc]

theorem splitSlash_cons (c : Char) (rest t : GoStr) (ts : List GoStr)
    (ht : splitSlash rest = t :: ts) :
    splitSlash (c :: rest) = if c = '/' then [] :: t :: ts else (c :: t) :: ts := by
  unfold splitSlash
  rw [ht]

theorem no_slash_mem_splitSlash : ∀ l : GoStr, ∀ s ∈ splitSlash l, '/' ∉ s
  | [], s, hs => by
    simp [splitSlash] at hs
    simp [hs]
  | c :: rest, s, hs => by
    have ih := no_slash_mem_splitSlash rest
    rcases ht : splitSlash rest with _ | ⟨t, ts⟩
    · exact absurd ht (splitSlash_ne_nil rest)
    · rw [splitSlash_cons c rest t ts ht] at hs
      by_cases hc : c = '/'
      · rw [if_pos hc, List.mem_cons] at hs
        rcases hs with rfl | hs
        · simp
        · exact ih s (ht ▸ hs)
      · rw [if_neg hc, List.mem_cons] at hs
        rcases hs with rfl | hs
        · intro hin
          rcases List.mem_cons.mp hin with h1 | h1
          · exact hc h1.symm
          · exact ih t (ht ▸ List.mem_cons_self t ts) h1
        · exact ih s (ht ▸ List.mem_cons.mpr (Or.inr hs))

theorem splitSlash_no_slash (x : GoStr) (h : '/' ∉ x) : splitSlash x = [x] := by
  induction x with
  | nil => rfl
  | cons c rest ih =>
    have hc : c ≠ '/' := fun he => h (he ▸ List.mem_cons_self c rest)
    have hr : '/' ∉ rest := fun hm => h (List.mem_cons.mpr (Or.inr hm))
    rw [splitSlash, ih hr]
    simp [hc]

theorem joinSegs_splitSlash : ∀ x : GoStr, joinSegs (splitSlash x) = x
  | [] => rfl
  | c :: rest => by
    have ih := joinSegs_splitSlash rest
    rcases hs : splitSlash rest with _ | ⟨s, ss⟩
    · exact absurd hs (splitSlash_ne_nil rest)
    · rw [hs] at ih
      rw [splitSlash_cons c rest s ss hs]
      by_cases hc : c = '/'
      · subst hc
        rw [if_pos rfl]
        cases ss <;> simp_all [joinSegs]
      · rw [if_neg hc]
        cases ss <;> simp_all [joinSegs]

theorem splitSlash_joinSegs : ∀ K : List GoStr, K ≠ [] → (∀ s ∈ K, '/' ∉ s) →
    splitSlash (joinSegs K) = K
  | [], h, _ => absurd rfl h
  | [s], _, hs => by
    simpa [joinSegs] using splitSlash_no_slash s (hs s (by simp))
  | s :: s₂ :: ss, _, hs => by
    have ih := splitSlash_joinSegs (s₂ :: ss) (by simp)
      (fun u hu => hs u (List.mem_cons.mpr (Or.inr hu)))
    have hjoin : joinSegs (s :: s₂ :: ss) = s ++ '/' :: joinSegs (s₂ :: ss) := rfl
    rw [hjoin, splitSlash_append, splitSlash_no_slash s (hs s (by simp)), ih]
    rfl

theorem joinSegs_append : ∀ K K' : List GoStr, K ≠ [] → K' ≠ [] →
    joinSegs (K ++ K') = joinSegs K ++ '/' :: joinSegs K'
  | [], _, h, _ => absurd rfl h
  | [s], K', _, h' => by
    cases K' with
    | nil => exact absurd rfl h'
    | cons t ts => rfl
  | s :: s₂ :: ss, K', _, h' => by
    have ih := joinSegs_append (s₂ :: ss) K' (by simp) h'
    have h1 : joinSegs ((s :: s₂ :: ss) ++ K') = s ++ '/' :: joinSegs ((s₂ :: ss) ++ K') := rfl
    have h2 : joinSegs (s :: s₂ :: ss) = s ++ '/' :: joinSegs (s₂ :: ss) := rfl
    rw [h1, ih, h2]
    simp

theorem joinSegs_ne_nil : ∀ K : List GoStr, K ≠ [] → (∀ s ∈ K, s ≠ []) → joinSegs K ≠ []
  | [], h, _ => absurd rfl h
  | [s], _, hs => by simpa [joinSegs] using hs s (by simp)
  | s :: s₂ :: ss, _, hs => by
    have h2 : joinSegs (s :: s₂ :: ss) = s ++ '/' :: joinSegs (s₂ :: ss) := rfl
    rw [h2]
    simp

/-! ## `takeWhile`/`dropWhile`, `trimSlash` and `pathSplit` structure lemmas -/

theorem takeWhile_append_all {α : Type} (p : α → Bool) :
    ∀ xs ys : List α, (∀ x ∈ xs, p x = true) →
      (xs ++ ys).takeWhile p = xs ++ ys.takeWhile p
  | [], _, _ => rfl
  | x :: xs, ys, h => by
    have hx : p x = true := h x (by simp)
    simp [List.takeWhile_cons, hx,
      takeWhile_append_all p xs ys (fun a ha => h a (by simp [ha]))]

theorem dropWhile_append_all {α : Type} (p : α → Bool) :
    ∀ xs ys : List α, (∀ x ∈ xs, p x = true) →
      (xs ++ ys).dropWhile p = ys.dropWhile p
  | [], _, _ => rfl
  | x :: xs, ys, h => by
    have hx : p x = true := h x (by simp)
    simp [List.dropWhile_cons, hx,
      dropWhile_append_all p xs ys (fun a ha => h a (by simp [ha]))]

theorem takeWhile_append_stop {α : Type} (p : α → Bool) :
    ∀ zs ws : List α, zs.dropWhile p ≠ [] →
      (zs ++ ws).takeWhile p = zs.takeWhile p
  | [], _, h => absurd rfl h
  | z :: zs, ws, h => by
    by_cases hz : p z = true
    · have h' : zs.dropWhile p ≠ [] := by simpa [List.dropWhile_cons, hz] using h
      simp [List.takeWhile_cons, hz, takeWhile_append_stop p zs ws h']
    · simp [List.takeWhile_cons, hz]

theorem dropWhile_append_stop {α : Type} (p : α → Bool) :
    ∀ zs ws : List α, zs.dropWhile p ≠ [] →
      (zs ++ ws).dropWhile p = zs.dropWhile p ++ ws
  | [], _, h => absurd rfl h
  | z :: zs, ws, h => by
    by_cases hz : p z = true
    · have h' : zs.dropWhile p ≠ [] := by simpa [List.dropWhile_cons, hz] using h
      simp [List.dropWhile_cons, hz, dropWhile_append_stop p zs ws h']
    · simp [List.dropWhile_cons, hz]

theorem dropWhile_ne_nil_of_mem {α : Type} (p : α → Bool) :
    ∀ (zs : List α) (z : α), z ∈ zs → p z = false → zs.dropWhile p ≠ []
  | [], _, hz, _ => absurd hz (by simp)
  | a :: as, z, hz, hpz => by
    by_cases ha : p a = true
    · have hza : z ≠ a := fun he => by rw [he, ha] at hpz; cases hpz
      have hz' : z ∈ as := by
        rcases List.mem_cons.mp hz with h1 | h1
        · exact absurd h1 hza
        · exact h1
      simpa [List.dropWhile_cons, ha] using dropWhile_ne_nil_of_mem p as z hz' hpz
    · simp [List.dropWhile_cons, ha]

theorem dropWhile_head_false {α : Type} (p : α → Bool) :
    ∀ (l : List α) (a : α) (t : List α), l.dropWhile p = a :: t → p a = false
  | [], _, _, h => by simp at h
  | x :: xs, a, t, h => by
    by_cases hx : p x = true
    · rw [List.dropWhile_cons, if_pos hx] at h
      exact dropWhile_head_false p xs a t h
    · rw [List.dropWhile_cons, if_neg hx] at h
      cases h
      exact eq_false_of_ne_true hx

theorem trimSlash_eq_self (l : GoStr) (h1 : l.head? ≠ some '/') (h2 : l.getLast? ≠ some '/') :
    trimSlash l = l := by
  unfold trimSlash
  have d1 : l.dropWhile (· = '/') = l := by
    cases l with
    | nil => rfl
    | cons c t =>
      have hc : ¬(c = '/') := fun he => h1 (by simp [he])
      simp [List.dropWhile_cons, hc]
  rw [d1]
  have d2 : l.reverse.dropWhile (· = '/') = l.reverse := by
    cases hr : l.reverse with
    | nil => rfl
    | cons c t =>
      have hc' : l.getLast? = some c := by
        rw [← List.head?_reverse, hr]
        rfl
      have hc : ¬(c = '/') := fun he => h2 (by rw [hc', he])
      simp [List.dropWhile_cons, hc]
  rw [d2, List.reverse_reverse]

theorem trimSlash_cons_slash (l : GoStr) : trimSlash ('/' :: l) = trimSlash l := by
  unfold trimSlash
  simp [List.dropWhile_cons]

theorem pathSplit_fst_append_snd (p : GoStr) : (pathSplit p).1 ++ (pathSplit p).2 = p :=
  calc (pathSplit p).1 ++ (pathSplit p).2
      = (p.reverse.dropWhile (· ≠ '/')).reverse ++ (p.reverse.takeWhile (· ≠ '/')).reverse := rfl
    _ = (p.reverse.takeWhile (· ≠ '/') ++ p.reverse.dropWhile (· ≠ '/')).reverse :=
        (List.reverse_append _ _).symm
    _ = p.reverse.reverse := by rw [List.takeWhile_append_dropWhile]
    _ = p := List.reverse_reverse p

theorem no_slash_pathSplit_snd (p : GoStr) : '/' ∉ (pathSplit p).2 := by
  intro h
  have h' : '/' ∈ p.reverse.takeWhile (· ≠ '/') := by
    have := List.mem_reverse.mpr h
    simpa [pathSplit] using this
  have := List.mem_takeWhile_imp h'
  simp at this

theorem pathSplit_fst_cases (p : GoStr) :
    (pathSplit p).1 = [] ∨ (pathSplit p).1.getLast? = some '/' := by
  rcases hr : p.reverse.dropWhile (· ≠ '/') with _ | ⟨c, t⟩
  · left
    show (p.reverse.dropWhile (· ≠ '/')).reverse = []
    rw [hr]
    rfl
  · right
    have hc := dropWhile_head_false _ _ _ _ hr
    have hc' : c = '/' := by simpa using hc
    have hfst : (pathSplit p).1 = (c :: t).reverse := by
      show (p.reverse.dropWhile (· ≠ '/')).reverse = (c :: t).reverse
      rw [hr]
    rw [hfst, List.getLast?_reverse]
    simp [hc']

theorem pathSplit_append_slash (xs ys : GoStr) (h : '/' ∈ ys) :
    pathSplit (xs ++ ys) = (xs ++ (pathSplit ys).1, (pathSplit ys).2) := by
  have hdw : ys.reverse.dropWhile (· ≠ '/') ≠ [] :=
    dropWhile_ne_nil_of_mem _ ys.reverse '/' (List.mem_reverse.mpr h) (by simp)
  unfold pathSplit
  rw [List.reverse_append, takeWhile_append_stop _ _ _ hdw, dropWhile_append_stop _ _ _ hdw]
  simp

theorem pathSplit_single_name (xs ys : GoStr) (h : '/' ∉ ys) :
    pathSplit (xs ++ '/' :: ys) = (xs ++ ['/'], ys) := by
  have hmem : '/' ∈ '/' :: ys := by simp
  rw [show xs ++ '/' :: ys = xs ++ ('/' :: ys) from rfl,
    pathSplit_append_slash xs ('/' :: ys) hmem]
  have hall : ∀ x ∈ ys.reverse, (fun c => decide (c ≠ '/')) x = true := by
    intro x hx
    have : x ∈ ys := List.mem_reverse.mp hx
    simp
    exact fun he => h (he ▸ this)
  have h1 : pathSplit ('/' :: ys) = (['/'], ys) := by
    unfold pathSplit
    have hrev : ('/' :: ys).reverse = ys.reverse ++ ['/'] := by simp
    rw [hrev, takeWhile_append_all _ _ _ hall, dropWhile_append_all _ _ _ hall]
    simp [List.takeWhile_cons, List.dropWhile_cons]
  rw [h1]

/-! ## `pathClean` and the effective prefix under dot-dot-free paths -/

theorem cleanFold_no_dotdot (ro : Bool) :
    ∀ (l : List GoStr) (st : List GoStr), ['.', '.'] ∉ l →
      cleanFold ro st l = (l.filter keepSeg).reverse ++ st
  | [], st, _ => by simp [cleanFold]
  | s :: rest, st, h => by
    have hs : s ≠ ['.', '.'] := fun he => h (he ▸ List.mem_cons_self s rest)
    have hr : ['.', '.'] ∉ rest := fun hm => h (List.mem_cons.mpr (Or.inr hm))
    by_cases hdrop : s = [] ∨ s = ['.']
    · have hkeep : keepSeg s = false := by
        rcases hdrop with rfl | rfl <;> rfl
      unfold cleanFold
      rw [if_pos hdrop, cleanFold_no_dotdot ro rest st hr]
      simp [List.filter_cons, hkeep]
    · have hkeep : keepSeg s = true := by
        simp only [keepSeg, Bool.not_eq_true', Bool.or_eq_false_iff, decide_eq_false_iff_not]
        push_neg at hdrop
        exact ⟨hdrop.1, hdrop.2⟩
      unfold cleanFold
      rw [if_neg hdrop, if_neg hs, cleanFold_no_dotdot ro rest (s :: st) hr]
      simp [List.filter_cons, hkeep]

theorem keptSegs_nil : keptSegs [] = [] := rfl

theorem mem_keptSegs (x : GoStr) {s : GoStr} (h : s ∈ keptSegs x) : s ≠ [] ∧ '/' ∉ s := by
  have h1 := List.mem_filter.mp h
  refine ⟨?_, no_slash_mem_splitSlash x s h1.1⟩
  intro he
  subst he
  simp [keepSeg] at h1

theorem keptSegs_append (xs ys : GoStr) :
    keptSegs (xs ++ '/' :: ys) = keptSegs xs ++ keptSegs ys := by
  unfold keptSegs
  rw [splitSlash_append, List.filter_append]

theorem joinSegs_kept_ne_nil (x : GoStr) (hk : keptSegs x ≠ []) :
    joinSegs (keptSegs x) ≠ [] :=
  joinSegs_ne_nil _ hk (fun _ hs => (mem_keptSegs x hs).1)

theorem trimSlash_joinSegs_kept (x : GoStr) (hk : keptSegs x ≠ []) :
    trimSlash (joinSegs (keptSegs x)) = joinSegs (keptSegs x) := by
  have hprops : ∀ s ∈ keptSegs x, s ≠ [] ∧ '/' ∉ s := fun s hs => mem_keptSegs x hs
  have hhead : (joinSegs (keptSegs x)).head? ≠ some '/' := by
    rcases hK : keptSegs x with _ | ⟨s, ss⟩
    · exact absurd hK hk
    · have hsprop := hprops s (hK ▸ List.mem_cons_self s ss)
      rcases hs : s with _ | ⟨a, s'⟩
      · exact absurd hs hsprop.1
      · have hane : a ≠ '/' := by
          intro he
          refine hsprop.2 ?_
          rw [hs, he]
          exact List.mem_cons_self _ _
        subst hs
        cases ss with
        | nil => simpa [joinSegs] using fun he => hane he
        | cons s₂ ss' =>
          have hj : joinSegs ((a :: s') :: s₂ :: ss')
              = (a :: s') ++ '/' :: joinSegs (s₂ :: ss') := rfl
          rw [hj]
          simpa using fun he => hane he
  have hlast : ∀ K : List GoStr, K ≠ [] → (∀ s ∈ K, s ≠ [] ∧ '/' ∉ s) →
      (joinSegs K).getLast? ≠ some '/' := by
    intro K
    induction K with
    | nil => intro h _; exact absurd rfl h
    | cons s ss ih =>
      intro _ hp
      cases ss with
      | nil =>
        have hsp := hp s (by simp)
        intro hcon
        have h1 : (joinSegs [s]).getLast? = s.getLast? := rfl
        rw [h1, List.getLast?_eq_getLast_of_ne_nil hsp.1, Option.some.injEq] at hcon
        have hmem : s.getLast hsp.1 ∈ s := List.getLast_mem hsp.1
        exact hsp.2 (hcon ▸ hmem)
      | cons s₂ ss' =>
        have hstep : joinSegs (s :: s₂ :: ss') = s ++ '/' :: joinSegs (s₂ :: ss') := rfl
        have hJne : joinSegs (s₂ :: ss') ≠ [] :=
          joinSegs_ne_nil _ (by simp) (fun u hu => (hp u (List.mem_cons.mpr (Or.inr hu))).1)
        have ihv := ih (by simp) (fun u hu => hp u (List.mem_cons.mpr (Or.inr hu)))
        rw [hstep, List.getLast?_append_cons]
        rcases hJ : joinSegs (s₂ :: ss') with _ | ⟨b, bs⟩
        · exact absurd hJ hJne
        · rw [List.getLast?_cons_cons]
          rw [hJ] at ihv
          exact ihv
  exact trimSlash_eq_self _ hhead (hlast _ hk hprops)

theorem pathClean_no_dotdot (p : GoStr) (hp : p ≠ []) (hnd : NoDotDot p) :
    pathClean p =
      if p.head? = some '/' then
        (if keptSegs p = [] then ['/'] else '/' :: joinSegs (keptSegs p))
      else
        (if keptSegs p = [] then ['.'] else joinSegs (keptSegs p)) := by
  have hcf : ∀ ro : Bool, (cleanFold ro [] (splitSlash p)).reverse = keptSegs p := by
    intro ro
    rw [cleanFold_no_dotdot ro (splitSlash p) [] hnd]
    simp [keptSegs]
  by_cases hroot : p.head? = some '/'
  · by_cases hkept : keptSegs p = []
    · simp [pathClean, hp, hroot, hcf, hkept, joinSegs]
    · have hne := joinSegs_kept_ne_nil p hkept
      simp [pathClean, hp, hroot, hcf, hkept, hne]
  · by_cases hkept : keptSegs p = []
    · simp [pathClean, hp, hroot, hcf, hkept, joinSegs]
    · have hne := joinSegs_kept_ne_nil p hkept
      simp [pathClean, hp, hroot, hcf, hkept, hne]

theorem trim_pathClean_kept (p : GoStr) (hp : p ≠ []) (hnd : NoDotDot p)
    (hk : keptSegs p ≠ []) :
    trimSlash (pathClean p) = joinSegs (keptSegs p) := by
  rw [pathClean_no_dotdot p hp hnd]
  by_cases hroot : p.head? = some '/'
  · rw [if_pos hroot, if_neg hk, trimSlash_cons_slash]
    exact trimSlash_joinSegs_kept p hk
  · rw [if_neg hroot, if_neg hk]
    exact trimSlash_joinSegs_kept p hk

/-- `strings.Trim(path.Join(pfx, dir), "/")` under dot-dot-free inputs is the
slash-join of the kept segments of both parts. -/
theorem trim_join (pfx dir : GoStr) (h1 : NoDotDot pfx) (h2 : NoDotDot dir)
    (h3 : keptSegs pfx ++ keptSegs dir ≠ []) :
    trimSlash (pathJoin pfx dir) = joinSegs (keptSegs pfx ++ keptSegs dir) := by
  by_cases hpfx : pfx = []
  · subst hpfx
    rw [keptSegs_nil] at h3 ⊢
    rw [List.nil_append] at h3 ⊢
    have hdir : dir ≠ [] := by
      intro he
      exact h3 (by rw [he, keptSegs_nil])
    have : pathJoin [] dir = pathClean dir := by
      unfold pathJoin
      rw [if_pos rfl, if_neg hdir]
    rw [this]
    exact trim_pathClean_kept dir hdir h2 h3
  · have hjoin : pathJoin pfx dir = pathClean (pfx ++ '/' :: dir) := by
      unfold pathJoin
      rw [if_neg hpfx]
    have hnd' : NoDotDot (pfx ++ '/' :: dir) := by
      unfold NoDotDot at h1 h2 ⊢
      rw [splitSlash_append]
      simp [h1, h2]
    have hkept' : keptSegs (pfx ++ '/' :: dir) = keptSegs pfx ++ keptSegs dir :=
      keptSegs_append pfx dir
    rw [hjoin, trim_pathClean_kept _ (by simp) hnd' (by rw [hkept']; exact h3), hkept']

/-- The effective prefix under dot-dot-free inputs: the kept segments of the
backend path and the requested directory, slash-joined, plus a trailing
slash. -/
theorem effPfx_eq_kept (pfx dir : GoStr) (h1 : NoDotDot pfx) (h2 : NoDotDot dir)
    (h3 : keptSegs pfx ++ keptSegs dir ≠ []) :
    effPfx pfx dir = joinSegs (keptSegs pfx ++ keptSegs dir) ++ ['/'] := by
  have htj := trim_join pfx dir h1 h2 h3
  have hJne : joinSegs (keptSegs pfx ++ keptSegs dir) ≠ [] :=
    joinSegs_ne_nil _ h3 (fun s hs => by
      rcases List.mem_append.mp hs with h | h
      · exact (mem_keptSegs pfx h).1
      · exact (mem_keptSegs dir h).1)
  have hsfx : bucketSuffix pfx dir = joinSegs (keptSegs pfx ++ keptSegs dir) ++ ['/'] := by
    unfold bucketSuffix
    rw [htj]
  have hne : bucketSuffix pfx dir ≠ ['/'] := by
    rw [hsfx]
    intro he
    have hlen := congrArg List.length he
    simp at hlen
    exact hJne hlen
  unfold effPfx openBucketView
  rw [if_neg hne]
  exact hsfx

/-! ## Scoped-key shape and disjointness lemmas -/

theorem takeWhile_ne_slash_append (pa x : GoStr) (h : '/' ∉ pa) :
    (pa ++ '/' :: x).takeWhile (· ≠ '/') = pa := by
  have hall : ∀ c ∈ pa, (fun c => decide (c ≠ '/')) c = true := by
    intro c hc
    simp only [decide_eq_true_eq]
    exact fun he => h (he ▸ hc)
  rw [takeWhile_append_all _ pa ('/' :: x) hall]
  simp [List.takeWhile_cons]

theorem scoped_keys_disjoint (pa pb x y : GoStr) (hpa : '/' ∉ pa) (hpb : '/' ∉ pb)
    (hne : pa ≠ pb) : pa ++ '/' :: x ≠ pb ++ '/' :: y := by
  intro he
  have h2 := congrArg (List.takeWhile (· ≠ '/')) he
  rw [takeWhile_ne_slash_append pa x hpa, takeWhile_ne_slash_append pb y hpb] at h2
  exact hne h2

theorem append_slash_prefix (pa : GoStr) : ∀ (pb x y : GoStr), '/' ∉ pa → '/' ∉ pb →
    (pb ++ '/' :: y) <+: (pa ++ '/' :: x) → pb = pa ∧ y <+: x := by
  induction pa with
  | nil =>
    intro pb x y _ hpb hpre
    cases pb with
    | nil =>
      refine ⟨rfl, ?_⟩
      rw [List.nil_append, List.nil_append] at hpre
      exact (List.cons_prefix_cons.mp hpre).2
    | cons b pb' =>
      rw [List.nil_append, List.cons_append] at hpre
      have hb := (List.cons_prefix_cons.mp hpre).1
      exact absurd (hb ▸ List.mem_cons_self b pb') hpb
  | cons a pa' ih =>
    intro pb x y hpa hpb hpre
    cases pb with
    | nil =>
      rw [List.nil_append, List.cons_append] at hpre
      have hb := (List.cons_prefix_cons.mp hpre).1
      exact absurd (hb ▸ List.mem_cons_self a pa') hpa
    | cons b pb' =>
      rw [List.cons_append, List.cons_append] at hpre
      obtain ⟨hba, hrest⟩ := List.cons_prefix_cons.mp hpre
      obtain ⟨h1, h2⟩ := ih pb' x y
        (fun hm => hpa (List.mem_cons.mpr (Or.inr hm)))
        (fun hm => hpb (List.mem_cons.mpr (Or.inr hm))) hrest
      exact ⟨by rw [hba, h1], h2⟩

theorem goodSeg_noDotDot (pa : GoStr) (hpa : GoodSeg pa) : NoDotDot pa := by
  unfold NoDotDot
  rw [splitSlash_no_slash pa hpa.2.2.2]
  simp only [List.mem_singleton]
  exact fun h => hpa.2.2.1 h.symm

theorem keptSegs_goodSeg (pa : GoStr) (hpa : GoodSeg pa) : keptSegs pa = [pa] := by
  unfold keptSegs
  rw [splitSlash_no_slash pa hpa.2.2.2]
  have : keepSeg pa = true := by
    simp only [keepSeg, Bool.not_eq_true', Bool.or_eq_false_iff, decide_eq_false_iff_not]
    exact ⟨hpa.1, hpa.2.1⟩
  simp [List.filter_cons, this]

/-- On a facade whose backend path is a plain segment `pa`, every opened
bucket's effective scope starts with `pa ++ "/"` as long as the requested
directory has no `".."` segment. -/
theorem effPfx_goodseg (pa dir : GoStr) (hpa : GoodSeg pa) (hdir : NoDotDot dir) :
    ∃ t, effPfx pa dir = pa ++ '/' :: t := by
  have h3 : keptSegs pa ++ keptSegs dir ≠ [] := by
    rw [keptSegs_goodSeg pa hpa]
    simp
  have he := effPfx_eq_kept pa dir (goodSeg_noDotDot pa hpa) hdir h3
  rw [keptSegs_goodSeg pa hpa] at he
  cases hkd : keptSegs dir with
  | nil =>
    rw [hkd] at he
    exact ⟨[], by simpa [joinSegs] using he⟩
  | cons d ds =>
    rw [hkd] at he
    have hj : joinSegs (pa :: d :: ds) = pa ++ '/' :: joinSegs (d :: ds) := rfl
    rw [show ([pa] ++ d :: ds) = pa :: d :: ds from rfl, hj] at he
    exact ⟨joinSegs (d :: ds) ++ ['/'], by simpa using he⟩

theorem effPfx_goodseg_ends (pa dir : GoStr) (hpa : GoodSeg pa) (hdir : NoDotDot dir) :
    (effPfx pa dir).getLast? = some '/' := by
  have h3 : keptSegs pa ++ keptSegs dir ≠ [] := by
    rw [keptSegs_goodSeg pa hpa]
    simp
  rw [effPfx_eq_kept pa dir (goodSeg_noDotDot pa hpa) hdir h3,
    List.getLast?_append_cons]
  rfl

/-! ## Store-operation invariance lemmas -/

theorem storeLookup_upsert_ne (k k' : GoStr) (v : Bytes) (h : k ≠ k') :
    ∀ s : Store, storeLookup (storeUpsert s k v) k' = storeLookup s k' := by
  intro s
  induction s with
  | nil => simp [storeUpsert, storeLookup, h]
  | cons kv t ih =>
    obtain ⟨k1, v1⟩ := kv
    by_cases h1 : k1 = k <;> simp [storeUpsert, storeLookup, h1, h, ih]

theorem flatList_upsert_not_under (k : GoStr) (v : Bytes) (e : GoStr)
    (h : ¬ e <+: k) :
    ∀ s : Store, flatList (storeUpsert s k v) e = flatList s e := by
  intro s
  induction s with
  | nil => simp [storeUpsert, flatList, storeKeys, h]
  | cons kv t ih =>
    obtain ⟨k1, v1⟩ := kv
    by_cases h1 : k1 = k
    · subst h1
      simp [storeUpsert, flatList, storeKeys, List.filterMap_cons]
    · simp only [storeUpsert, if_neg h1]
      simp only [flatList, storeKeys, List.map_cons, List.filterMap_cons] at ih ⊢
      rw [ih]

/-! ## `NoDotDot` preservation -/

theorem noDotDot_nil : NoDotDot [] := by decide

theorem noDotDot_append (xs ys : GoStr) :
    NoDotDot (xs ++ '/' :: ys) ↔ NoDotDot xs ∧ NoDotDot ys := by
  unfold NoDotDot
  rw [splitSlash_append]
  simp [not_or]

theorem noDotDot_of_drop (e k : GoStr) (he : e.getLast? = some '/') (hpre : e <+: k)
    (hk : NoDotDot k) : NoDotDot (k.drop e.length) := by
  obtain ⟨rel, rfl⟩ := hpre
  rw [List.drop_left]
  have hmem : '/' ∈ e.getLast? := by rw [he]; rfl
  have hdecomp : e.dropLast ++ ['/'] = e := List.dropLast_append_getLast? '/' hmem
  rw [← hdecomp, List.append_assoc] at hk
  exact ((noDotDot_append _ _).mp hk).2

theorem noDotDot_pathClean (p : GoStr) (h : NoDotDot p) : NoDotDot (pathClean p) := by
  by_cases hp : p = []
  · subst hp
    show NoDotDot (pathClean [])
    decide
  · have hksub : ∀ s ∈ keptSegs p, s ∈ splitSlash p := fun s hs => (List.mem_filter.mp hs).1
    have hknd : ['.', '.'] ∉ keptSegs p := fun hm => h (hksub _ hm)
    rw [pathClean_no_dotdot p hp h]
    by_cases hroot : p.head? = some '/' <;> by_cases hkept : keptSegs p = []
    · simp only [if_pos hroot, if_pos hkept]
      decide
    · simp only [if_pos hroot, if_neg hkept]
      have hJ : splitSlash (joinSegs (keptSegs p)) = keptSegs p :=
        splitSlash_joinSegs _ hkept (fun s hs => (mem_keptSegs p hs).2)
      unfold NoDotDot
      rw [show ('/' :: joinSegs (keptSegs p)) = [] ++ '/' :: joinSegs (keptSegs p) from rfl,
        splitSlash_append, hJ]
      simp only [List.mem_append, not_or]
      exact ⟨by decide, hknd⟩
    · simp only [if_neg hroot, if_pos hkept]
      decide
    · simp only [if_neg hroot, if_neg hkept]
      have hJ : splitSlash (joinSegs (keptSegs p)) = keptSegs p :=
        splitSlash_joinSegs _ hkept (fun s hs => (mem_keptSegs p hs).2)
      unfold NoDotDot
      rw [hJ]
      exact hknd

theorem noDotDot_pathJoin (a b : GoStr) (ha : NoDotDot a) (hb : NoDotDot b) :
    NoDotDot (pathJoin a b) := by
  unfold pathJoin
  by_cases hae : a = []
  · rw [if_pos hae]
    by_cases hbe : b = []
    · rw [if_pos hbe]
      exact noDotDot_nil
    · rw [if_neg hbe]
      exact noDotDot_pathClean b hb
  · rw [if_neg hae]
    exact noDotDot_pathClean _ ((noDotDot_append a b).mpr ⟨ha, hb⟩)

theorem noDotDot_pathSplit_fst (q : GoStr) (h : NoDotDot q) : NoDotDot (pathSplit q).1 := by
  rcases pathSplit_fst_cases q with h1 | h1
  · rw [h1]
    exact noDotDot_nil
  · have hq := pathSplit_fst_append_snd q
    have hmem : '/' ∈ (pathSplit q).1.getLast? := by rw [h1]; rfl
    have hdecomp : (pathSplit q).1.dropLast ++ ['/'] = (pathSplit q).1 :=
      List.dropLast_append_getLast? '/' hmem
    rw [← hq, ← hdecomp, List.append_assoc] at h
    have h2 : NoDotDot ((pathSplit q).1.dropLast ++ '/' :: (pathSplit q).2) := h
    have hparts := (noDotDot_append _ _).mp h2
    rw [← hdecomp]
    exact (noDotDot_append _ _).mpr ⟨hparts.1, noDotDot_nil⟩

/-! ## `mapM` congruence and `flatList` membership -/

theorem mapM_option_congr {α β : Type} (f g : α → Option β) :
    ∀ l : List α, (∀ a ∈ l, f a = g a) → l.mapM f = l.mapM g
  | [], _ => rfl
  | a :: l, h => by
    have h1 : f a = g a := h a (by simp)
    have h2 := mapM_option_congr f g l (fun b hb => h b (by simp [hb]))
    rw [List.mapM_cons, List.mapM_cons, h1, h2]

theorem mem_flatList {s : Store} {e rel : GoStr} (h : rel ∈ flatList s e) :
    ∃ k ∈ storeKeys s, e <+: k ∧ rel = k.drop e.length := by
  unfold flatList at h
  obtain ⟨k, hk, hf⟩ := List.mem_filterMap.mp h
  by_cases hpre : e.isPrefixOf k
  · rw [if_pos hpre, Option.some.injEq] at hf
    exact ⟨k, hk, List.isPrefixOf_iff_prefix.mp hpre, hf.symm⟩
  · rw [if_neg hpre] at hf
    cases hf

/-! ## Observation invariance under writes into a sibling scope -/

theorem scoped_not_prefix (pa pb u t : GoStr) (hpa : '/' ∉ pa) (hpb : '/' ∉ pb)
    (hne : pa ≠ pb) : ¬ (pb ++ '/' :: u) <+: (pa ++ '/' :: t) :=
  fun h => hne (( append_slash_prefix pa pb t u hpa hpb h).1).symm

theorem get_invariant (pa pb t q : GoStr) (hpa : GoodSeg pa) (hpb : GoodSeg pb)
    (hne : pa ≠ pb) (hq : NoDotDot (pathSplit q).1) (s : Store) (v : Bytes) :
    Blob.Get pb (storeUpsert s (pa ++ '/' :: t) v) q = Blob.Get pb s q := by
  obtain ⟨u, hu⟩ := effPfx_goodseg pb (pathSplit q).1 hpb hq
  have hkey : effPfx pb (pathSplit q).1 ++ (pathSplit q).2
      = pb ++ '/' :: (u ++ (pathSplit q).2) := by
    rw [hu, List.append_assoc]
    rfl
  show storeLookup (storeUpsert s (pa ++ '/' :: t) v)
      (effPfx pb (pathSplit q).1 ++ (pathSplit q).2)
    = storeLookup s (effPfx pb (pathSplit q).1 ++ (pathSplit q).2)
  rw [hkey]
  exact storeLookup_upsert_ne _ _ v
    (scoped_keys_disjoint pa pb t _ hpa.2.2.2 hpb.2.2.2 hne) s

theorem exists_invariant (pa pb t q : GoStr) (hpa : GoodSeg pa) (hpb : GoodSeg pb)
    (hne : pa ≠ pb) (hq : NoDotDot (pathSplit q).1) (s : Store) (v : Bytes) :
    Blob.Exists pb (storeUpsert s (pa ++ '/' :: t) v) q = Blob.Exists pb s q := by
  have h := get_invariant pa pb t q hpa hpb hne hq s v
  simp only [Blob.Get] at h
  simp only [Blob.Exists]
  rw [h]

theorem flat_invariant (pa pb t dir : GoStr) (hpa : GoodSeg pa) (hpb : GoodSeg pb)
    (hne : pa ≠ pb) (hdir : NoDotDot dir) (s : Store) (v : Bytes) :
    flatList (storeUpsert s (pa ++ '/' :: t) v) (effPfx pb dir)
      = flatList s (effPfx pb dir) := by
  obtain ⟨u, hu⟩ := effPfx_goodseg pb dir hpb hdir
  rw [hu]
  exact flatList_upsert_not_under _ v _
    ( scoped_not_prefix pa pb u t hpa.2.2.2 hpb.2.2.2 hne) s

theorem listDirN_invariant (pa pb t dir : GoStr) (hpa : GoodSeg pa) (hpb : GoodSeg pb)
    (hne : pa ≠ pb) (hdir : NoDotDot dir) (s : Store) (v : Bytes) (depth : List Int) :
    Blob.ListDirN pb (storeUpsert s (pa ++ '/' :: t) v) dir depth
      = Blob.ListDirN pb s dir depth := by
  have hfl := flat_invariant pa pb t dir hpa hpb hne hdir s v
  simp only [Blob.ListDirN]
  rw [hfl]

theorem listOp_invariant (pa pb t dir : GoStr) (hpa : GoodSeg pa) (hpb : GoodSeg pb)
    (hne : pa ≠ pb) (hdir : NoDotDot dir) (s : Store)
    (hkeys : ∀ k ∈ storeKeys s, NoDotDot k) (v : Bytes) :
    Blob.ListOp pb (storeUpsert s (pa ++ '/' :: t) v) dir = Blob.ListOp pb s dir := by
  have hfl := flat_invariant pa pb t dir hpa hpb hne hdir s v
  simp only [Blob.ListOp]
  rw [hfl]
  refine mapM_option_congr _ _ _ ?_
  intro rel hrel
  have hrel' : rel ∈ flatList s (effPfx pb dir) := (List.mem_filter.mp hrel).1
  obtain ⟨k, hkmem, hkpre, hkdrop⟩ := mem_flatList hrel'
  have hkend : (effPfx pb dir).getLast? = some '/' := effPfx_goodseg_ends pb dir hpb hdir
  have hreld : NoDotDot rel := by
    rw [hkdrop]
    exact noDotDot_of_drop _ k hkend hkpre (hkeys k hkmem)
  have hq : NoDotDot (pathSplit (pathJoin dir rel)).1 :=
    noDotDot_pathSplit_fst _ (noDotDot_pathJoin dir rel hdir hreld)
  exact get_invariant pa pb t (pathJoin dir rel) hpa hpb hne hq s v

/-! ## C2 (amended): prefix isolation for dot-dot-free paths -/

/-- C2 as amended: two facades over the same bucket whose backend prefixes
are distinct plain path segments never observe each other's writes, provided
the involved relative paths carry no `".."` segment (with a `".."` the
cleaning step of `path.Join` can hoist a write out of its scope, refuting
the unconditional claim).  Under these conditions every observation B can
make — `Get`, `Exists`, `List`, `ListDirN` — is bit-for-bit unchanged by a
write A performs through `Upload` or `SetPathAsDir`, and by symmetry of the
hypotheses the same holds with the roles of A and B swapped. -/
theorem prefix_isolation (pa pb : GoStr) (s : Store) (p q dirB : GoStr)
    (data : Bytes) (depth : List Int)
    (hpa : GoodSeg pa) (hpb : GoodSeg pb) (hne : pa ≠ pb)
    (hp : NoDotDot (pathSplit p).1) (hpFull : NoDotDot p)
    (hq : NoDotDot (pathSplit q).1) (hdirB : NoDotDot dirB)
    (hkeys : ∀ k ∈ storeKeys s, NoDotDot k) :
    (Blob.Get pb (Blob.Upload pa s p data) q = Blob.Get pb s q) ∧
    (Blob.Exists pb (Blob.Upload pa s p data) q = Blob.Exists pb s q) ∧
    (Blob.ListOp pb (Blob.Upload pa s p data) dirB = Blob.ListOp pb s dirB) ∧
    (Blob.ListDirN pb (Blob.Upload pa s p data) dirB depth
      = Blob.ListDirN pb s dirB depth) ∧
    (Blob.Get pb (Blob.SetPathAsDir pa s p) q = Blob.Get pb s q) ∧
    (Blob.Exists pb (Blob.SetPathAsDir pa s p) q = Blob.Exists pb s q) ∧
    (Blob.ListOp pb (Blob.SetPathAsDir pa s p) dirB = Blob.ListOp pb s dirB) ∧
    (Blob.ListDirN pb (Blob.SetPathAsDir pa s p) dirB depth
      = Blob.ListDirN pb s dirB depth) := by
  obtain ⟨tA, htA⟩ := effPfx_goodseg pa (pathSplit p).1 hpa hp
  have hupl : Blob.Upload pa s p data
      = storeUpsert s (pa ++ '/' :: (tA ++ (pathSplit p).2)) data := by
    show storeUpsert s (effPfx pa (pathSplit p).1 ++ (pathSplit p).2) data = _
    rw [htA, List.append_assoc]
    rfl
  obtain ⟨tS, htS⟩ := effPfx_goodseg pa p hpa hpFull
  have hspd : Blob.SetPathAsDir pa s p
      = storeUpsert s
          (pa ++ '/' :: (tS ++ (if p.getLast? = some '/' then p else p ++ ['/']))) [] := by
    show storeUpsert s (effPfx pa p ++ _) [] = _
    rw [htS, List.append_assoc]
    rfl
  rw [hupl, hspd]
  exact ⟨get_invariant pa pb _ q hpa hpb hne hq s data,
    exists_invariant pa pb _ q hpa hpb hne hq s data,
    listOp_invariant pa pb _ dirB hpa hpb hne hdirB s hkeys data,
    listDirN_invariant pa pb _ dirB hpa hpb hne hdirB s data depth,
    get_invariant pa pb _ q hpa hpb hne hq s [],
    exists_invariant pa pb _ q hpa hpb hne hq s [],
    listOp_invariant pa pb _ dirB hpa hpb hne hdirB s hkeys [],
    listDirN_invariant pa pb _ dirB hpa hpb hne hdirB s [] depth⟩

/-- Witness for the amended C2: facade A (prefix `a`) uploading `x/f` and
marking `x` as a directory leaves every observation of facade B (prefix `b`,
one preexisting key `b/g`) unchanged. -/
theorem prefix_isolation_witness :
    (Blob.Get "b".toList
        (Blob.Upload "a".toList [("b/g".toList, [5])] "x/f".toList [7]) "g".toList
      = Blob.Get "b".toList [("b/g".toList, [5])] "g".toList) ∧
    (Blob.Exists "b".toList
        (Blob.Upload "a".toList [("b/g".toList, [5])] "x/f".toList [7]) "g".toList
      = Blob.Exists "b".toList [("b/g".toList, [5])] "g".toList) ∧
    (Blob.ListOp "b".toList
        (Blob.Upload "a".toList [("b/g".toList, [5])] "x/f".toList [7]) []
      = Blob.ListOp "b".toList [("b/g".toList, [5])] []) ∧
    (Blob.ListDirN "b".toList
        (Blob.Upload "a".toList [("b/g".toList, [5])] "x/f".toList [7]) [] []
      = Blob.ListDirN "b".toList [("b/g".toList, [5])] [] []) ∧
    (Blob.Get "b".toList
        (Blob.SetPathAsDir "a".toList [("b/g".toList, [5])] "x/f".toList) "g".toList
      = Blob.Get "b".toList [("b/g".toList, [5])] "g".toList) ∧
    (Blob.Exists "b".toList
        (Blob.SetPathAsDir "a".toList [("b/g".toList, [5])] "x/f".toList) "g".toList
      = Blob.Exists "b".toList [("b/g".toList, [5])] "g".toList) ∧
    (Blob.ListOp "b".toList
        (Blob.SetPathAsDir "a".toList [("b/g".toList, [5])] "x/f".toList) []
      = Blob.ListOp "b".toList [("b/g".toList, [5])] []) ∧
    (Blob.ListDirN "b".toList
        (Blob.SetPathAsDir "a".toList [("b/g".toList, [5])] "x/f".toList) [] []
      = Blob.ListDirN "b".toList [("b/g".toList, [5])] [] []) :=
  prefix_isolation "a".toList "b".toList [("b/g".toList, [5])] "x/f".toList "g".toList []
    [7] [] (by decide) (by decide) (by decide) (by decide) (by decide) (by decide)
    (by decide) (by decide)

/-! ## C3 (amended): `deleteDir` removes the whole subtree -/

theorem goodSegs_noDotDot (x : GoStr) (h : GoodSegs x) : NoDotDot x :=
  fun hm => (h _ hm).2.2.1 rfl

theorem keptSegs_of_goodSegs (x : GoStr) (h : GoodSegs x) : keptSegs x = splitSlash x := by
  unfold keptSegs
  apply List.filter_eq_self.mpr
  intro s hs
  have hg := h s hs
  simp [keepSeg, hg.1, hg.2.1]

theorem goodSegs_ne_nil (rel : GoStr) (h : GoodSegs rel) : rel ≠ [] := by
  intro he
  subst he
  exact (h [] (by simp [splitSlash])).1 rfl

/-- The key a `deleteDir` entry resolves to is exactly the listed underlying
key: re-rooting `rel` under `dir`, splitting at the last slash and re-scoping
lands back on `effPfx pfx dir ++ rel`, for well-formed segments. -/
theorem deleteKeyOf_eq (pfx dir rel : GoStr) (h1 : NoDotDot pfx) (h2 : NoDotDot dir)
    (hK : keptSegs pfx ++ keptSegs dir ≠ []) (hrel : GoodSegs rel) :
    deleteKeyOf pfx dir rel = effPfx pfx dir ++ rel := by
  have he := effPfx_eq_kept pfx dir h1 h2 hK
  by_cases hslash : '/' ∈ rel
  · -- multi-segment entry: rel = dL ++ '/' :: n2
    obtain ⟨d2, n2, hps⟩ : ∃ d2 n2, pathSplit rel = (d2, n2) := ⟨_, _, rfl⟩
    have hfs : d2 ++ n2 = rel := by
      have h := pathSplit_fst_append_snd rel
      rw [hps] at h
      exact h
    have hn2 : '/' ∉ n2 := by
      have h := no_slash_pathSplit_snd rel
      rw [hps] at h
      exact h
    have hd2ne : d2 ≠ [] := by
      intro hnil
      rw [hnil, List.nil_append] at hfs
      exact hn2 (hfs ▸ hslash)
    have hd2last : d2.getLast? = some '/' := by
      have h := pathSplit_fst_cases rel
      rw [hps] at h
      rcases h with hc | hc
      · exact absurd hc hd2ne
      · exact hc
    have hmem' : '/' ∈ d2.getLast? := by rw [hd2last]; rfl
    have hdecomp : d2.dropLast ++ ['/'] = d2 :=
      List.dropLast_append_getLast? '/' hmem'
    have hreldecomp : d2.dropLast ++ '/' :: n2 = rel := by
      conv_rhs => rw [← hfs, ← hdecomp]
      rw [List.append_assoc]
      rfl
    have hsplitrel : splitSlash rel = splitSlash d2.dropLast ++ [n2] := by
      conv_lhs => rw [← hreldecomp]
      rw [splitSlash_append, splitSlash_no_slash n2 hn2]
    have hgoodL : GoodSegs d2.dropLast := by
      intro u hu
      exact hrel u (by rw [hsplitrel]; exact List.mem_append_left _ hu)
    have hfullsplit : pathSplit (dir ++ '/' :: rel) = ((dir ++ ['/']) ++ d2, n2) := by
      rw [show dir ++ '/' :: rel = (dir ++ ['/']) ++ rel by
        rw [List.append_assoc]; rfl]
      rw [pathSplit_append_slash (dir ++ ['/']) rel hslash, hps]
    have hdir2 : (dir ++ ['/']) ++ d2 = dir ++ '/' :: d2 := by
      rw [List.append_assoc]
      rfl
    have hnd_d2 : NoDotDot d2 := by
      rw [← hdecomp]
      exact (noDotDot_append _ _).mpr ⟨goodSegs_noDotDot _ hgoodL, noDotDot_nil⟩
    have hkept_d2 : keptSegs d2 = splitSlash d2.dropLast := by
      conv_lhs => rw [← hdecomp]
      rw [keptSegs_append, keptSegs_nil, List.append_nil,
        keptSegs_of_goodSegs _ hgoodL]
    have hkept_dir2 : keptSegs (dir ++ '/' :: d2)
        = keptSegs dir ++ splitSlash d2.dropLast := by
      rw [keptSegs_append, hkept_d2]
    have hssne : splitSlash d2.dropLast ≠ [] := splitSlash_ne_nil _
    have hK2 : keptSegs pfx ++ keptSegs (dir ++ '/' :: d2) ≠ [] := by
      rw [hkept_dir2]
      intro hcon
      rcases List.append_eq_nil.mp hcon with ⟨_, hcon2⟩
      rcases List.append_eq_nil.mp hcon2 with ⟨_, hcon3⟩
      exact hssne hcon3
    have he2 := effPfx_eq_kept pfx (dir ++ '/' :: d2)
      h1 ((noDotDot_append _ _).mpr ⟨h2, hnd_d2⟩) hK2
    rw [hkept_dir2] at he2
    have hjoin2 : joinSegs (keptSegs pfx ++ (keptSegs dir ++ splitSlash d2.dropLast))
        = joinSegs (keptSegs pfx ++ keptSegs dir) ++ '/' :: d2.dropLast := by
      rw [← List.append_assoc,
        joinSegs_append _ _ hK hssne,
        joinSegs_splitSlash d2.dropLast]
    have hdk : deleteKeyOf pfx dir rel
        = effPfx pfx ((dir ++ ['/']) ++ d2) ++ n2 := by
      unfold deleteKeyOf
      rw [hfullsplit]
    rw [hdk, hdir2, he2, hjoin2, he]
    conv_rhs => rw [← hreldecomp]
    simp [List.append_assoc]
  · -- single-segment entry
    have hfullsplit : pathSplit (dir ++ '/' :: rel) = (dir ++ ['/'], rel) :=
      pathSplit_single_name dir rel hslash
    have hnd2 : NoDotDot (dir ++ ['/']) := (noDotDot_append dir []).mpr ⟨h2, noDotDot_nil⟩
    have hkept2 : keptSegs (dir ++ ['/']) = keptSegs dir := by
      rw [show (dir ++ ['/'] : GoStr) = dir ++ '/' :: [] from rfl, keptSegs_append,
        keptSegs_nil, List.append_nil]
    have hK2 : keptSegs pfx ++ keptSegs (dir ++ ['/']) ≠ [] := by
      rw [hkept2]
      exact hK
    have he2 := effPfx_eq_kept pfx (dir ++ ['/']) h1 hnd2 hK2
    rw [hkept2] at he2
    have hdk : deleteKeyOf pfx dir rel = effPfx pfx (dir ++ ['/']) ++ rel := by
      unfold deleteKeyOf
      rw [hfullsplit]
    rw [hdk, he2, he]

theorem flatList_mem_intro (s : Store) (e k : GoStr) (hk : k ∈ storeKeys s)
    (hpre : e <+: k) : k.drop e.length ∈ flatList s e := by
  unfold flatList
  refine List.mem_filterMap.mpr ⟨k, hk, ?_⟩
  rw [if_pos ( List.isPrefixOf_iff_prefix.mpr hpre)]

/-- C3 as amended: `Delete(p, true)` enumerates the *undelimited* listing of
`p`'s scope — entries at every depth, not only the immediate listing level —
and deletes each returned entry individually, so keys nested in
sub-directories are deleted too: with no failing entries the operation
removes exactly every key under the effective prefix, returns the `nil`
aggregate, and leaves all other keys untouched. -/
theorem delete_dir_full_subtree (pfx dir : GoStr) (s : Store)
    (h1 : NoDotDot pfx) (h2 : NoDotDot dir)
    (hK : keptSegs pfx ++ keptSegs dir ≠ [])
    (hkeys : ∀ k ∈ storeKeys s, effPfx pfx dir <+: k →
      GoodSegs (k.drop (effPfx pfx dir).length)) :
    (Blob.Delete pfx [] s dir true).2 = [] ∧
    (Blob.Delete pfx [] s dir true).1
      = s.filter (fun kv => !((effPfx pfx dir).isPrefixOf kv.1)) ∧
    ∀ k ∈ storeKeys s, effPfx pfx dir <+: k →
      storeLookup (Blob.Delete pfx [] s dir true).1 k = none := by
  have hchar : ∀ k ∈ storeKeys s,
      (k ∈ attemptedKeys pfx s dir ↔ effPfx pfx dir <+: k) := by
    intro k hk
    constructor
    · intro hmem
      obtain ⟨rel, hrel, hkey⟩ := List.mem_map.mp hmem
      obtain ⟨k', hk', hpre', hdrop'⟩ := mem_flatList hrel
      have hgood : GoodSegs rel := hdrop' ▸ hkeys k' hk' hpre'
      rw [← hkey, deleteKeyOf_eq pfx dir rel h1 h2 hK hgood]
      exact List.prefix_append _ _
    · intro hpre
      obtain ⟨t, ht⟩ := hpre
      have hdrop : k.drop (effPfx pfx dir).length = t := by
        rw [← ht, List.drop_left]
      have hgood : GoodSegs t := hdrop ▸ hkeys k hk ⟨t, ht⟩
      refine List.mem_map.mpr ⟨t, ?_, ?_⟩
      · have hin := flatList_mem_intro s (effPfx pfx dir) k hk ⟨t, ht⟩
        rw [hdrop] at hin
        exact hin
      · rw [deleteKeyOf_eq pfx dir t h1 h2 hK hgood, ht]
  have hfold := deleteDir_foldl_eq pfx [] dir (flatList s (effPfx pfx dir)) s []
  have hdel : Blob.Delete pfx [] s dir true
      = (s.filter (fun kv => decide (kv.1 ∉ attemptedKeys pfx s dir)), []) := by
    simpa [Blob.Delete, Blob.deleteDir, attemptedKeys] using hfold
  refine ⟨by rw [hdel], ?_, ?_⟩
  · rw [hdel]
    show s.filter (fun kv => decide (kv.1 ∉ attemptedKeys pfx s dir))
        = s.filter (fun kv => !((effPfx pfx dir).isPrefixOf kv.1))
    refine List.filter_congr ?_
    intro kv hkv
    have hk : kv.1 ∈ storeKeys s := List.mem_map_of_mem Prod.fst hkv
    have hiff := hchar kv.1 hk
    by_cases hpre : effPfx pfx dir <+: kv.1
    · simp [ List.isPrefixOf_iff_prefix, hpre, hiff.mpr hpre]
    · have hnmem : kv.1 ∉ attemptedKeys pfx s dir := fun hm => hpre (hiff.mp hm)
      have hb : (effPfx pfx dir).isPrefixOf kv.1 = false := by
        rw [← Bool.not_eq_true, List.isPrefixOf_iff_prefix]
        exact hpre
      simp [hnmem, hb]
  · intro k hk hpre
    rw [hdel]
    exact storeLookup_filter_out _ k ((hchar k hk).mpr hpre) s

/-- Witness for the amended C3: deleting directory `d` returns the nil
aggregate and removes the nested key `d/sub/b.txt` two levels down. -/
theorem delete_dir_full_subtree_witness :
    ((Blob.Delete [] [] [("d/a.txt".toList, [1]), ("d/sub/b.txt".toList, [2])]
        "d".toList true).2 = []) ∧
    storeLookup
      (Blob.Delete [] [] [("d/a.txt".toList, [1]), ("d/sub/b.txt".toList, [2])]
        "d".toList true).1 "d/sub/b.txt".toList = none :=
  ⟨(delete_dir_full_subtree [] "d".toList
      [("d/a.txt".toList, [1]), ("d/sub/b.txt".toList, [2])]
      (by decide) (by decide) (by decide) (by decide)).1,
   (delete_dir_full_subtree [] "d".toList
      [("d/a.txt".toList, [1]), ("d/sub/b.txt".toList, [2])]
      (by decide) (by decide) (by decide) (by decide)).2.2
      "d/sub/b.txt".toList (by decide) (by decide)⟩

/-! ## C6 (amended): the directory marker and its discovery -/

/-- C6 as amended: `SetPathAsDir(p)` opens a bucket scoped at `p` itself and
then writes the marker key `p ++ "/"` relative to that scope, so the
zero-byte object lands at underlying key `effectivePrefix(p) ++ p ++ "/"` —
for a plain segment `p` that is `p/p/`, not the claimed `p/`.  The concrete
scenario nonetheless holds: after `markAsDirectory("empty")` on an empty
store the underlying bucket holds exactly `empty/empty/`, and
`listDirN("", 0)` still includes `"empty/"`, because the nested zero-byte
marker induces the root-level directory entry. -/
theorem set_path_as_dir_marker (pfx : GoStr) (s : Store) (p : GoStr)
    (h : p.getLast? ≠ some '/') :
    storeLookup (Blob.SetPathAsDir pfx s p) (effPfx pfx p ++ (p ++ ['/'])) = some [] ∧
    Blob.SetPathAsDir [] [] "empty".toList = [("empty/empty/".toList, [])] ∧
    "empty/".toList ∈ Blob.ListDirN [] (Blob.SetPathAsDir [] [] "empty".toList) [] [0] := by
  refine ⟨?_, by decide, by decide⟩
  show storeLookup
      (storeUpsert s (effPfx pfx p ++ (if p.getLast? = some '/' then p else p ++ ['/'])) [])
      (effPfx pfx p ++ (p ++ ['/'])) = some []
  rw [if_neg h]
  exact storeLookup_upsert_self s _ []

/-- Witness for the amended C6: the `"empty"` scenario itself. -/
theorem set_path_as_dir_marker_witness :
    storeLookup (Blob.SetPathAsDir [] [] "empty".toList)
      (effPfx [] "empty".toList ++ ("empty".toList ++ ['/'])) = some [] ∧
    Blob.SetPathAsDir [] [] "empty".toList = [("empty/empty/".toList, [])] ∧
    "empty/".toList ∈ Blob.ListDirN [] (Blob.SetPathAsDir [] [] "empty".toList) [] [0] :=
  set_path_as_dir_marker [] [] "empty".toList (by decide)

/-! ## C4 (amended): depth semantics of the directory walk -/

theorem split_at_first_slash (rest : GoStr) (h : '/' ∈ rest) :
    rest.takeWhile (· ≠ '/') ++ '/' :: (rest.dropWhile (· ≠ '/')).tail = rest ∧
    '/' ∉ rest.takeWhile (· ≠ '/') := by
  have hdw : rest.dropWhile (· ≠ '/') ≠ [] :=
    dropWhile_ne_nil_of_mem _ rest '/' h (by simp)
  rcases hd : rest.dropWhile (· ≠ '/') with _ | ⟨c, t⟩
  · exact absurd hd hdw
  · have hc : c = '/' := by simpa using dropWhile_head_false _ rest c t hd
    subst hc
    constructor
    · have h2 : rest.takeWhile (· ≠ '/') ++ rest.dropWhile (· ≠ '/') = rest := by
        rw [List.takeWhile_append_dropWhile]
      rw [hd] at h2
      simpa using h2
    · intro hm
      have := List.mem_takeWhile_imp hm
      simp at this

theorem slash_mem_of_ends (mid : GoStr) (hne : mid ≠ []) (hlast : mid.getLast? = some '/') :
    '/' ∈ mid := by
  rw [List.getLast?_eq_getLast_of_ne_nil hne, Option.some.injEq] at hlast
  exact hlast ▸ List.getLast_mem hne

theorem ne_nil_of_ends_slash (mid : GoStr) (hlast : mid.getLast? = some '/') : mid ≠ [] := by
  intro he
  subst he
  cases hlast

theorem dirEntryOf_some_shape {lp k d : GoStr} (h : dirEntryOf lp k = some d) :
    ∃ seg, '/' ∉ seg ∧ d = lp ++ seg ++ ['/'] ∧ d <+: k := by
  unfold dirEntryOf at h
  by_cases hpre : lp.isPrefixOf k
  · rw [if_pos hpre] at h
    by_cases hsl : '/' ∈ k.drop lp.length
    · rw [if_pos hsl, Option.some.injEq] at h
      obtain ⟨hsplit, hnosl⟩ := split_at_first_slash _ hsl
      obtain ⟨t, ht⟩ := List.isPrefixOf_iff_prefix.mp hpre
      have hrest : k.drop lp.length = t := by rw [← ht, List.drop_left]
      refine ⟨(k.drop lp.length).takeWhile (· ≠ '/'), hnosl, h.symm,
        ⟨((k.drop lp.length).dropWhile (· ≠ '/')).tail, ?_⟩⟩
      rw [← h]
      calc (lp ++ (k.drop lp.length).takeWhile (· ≠ '/') ++ ['/'])
            ++ ((k.drop lp.length).dropWhile (· ≠ '/')).tail
          = lp ++ ((k.drop lp.length).takeWhile (· ≠ '/')
              ++ '/' :: ((k.drop lp.length).dropWhile (· ≠ '/')).tail) := by
            simp [List.append_assoc]
        _ = lp ++ k.drop lp.length := by rw [hsplit]
        _ = k := by rw [hrest, ht]
    · rw [if_neg hsl] at h
      cases h
  · rw [if_neg hpre] at h
    cases h

theorem dirEntryOf_some_intro (lp k seg : GoStr) (hseg : '/' ∉ seg)
    (hpre : (lp ++ seg ++ ['/']) <+: k) :
    dirEntryOf lp k = some (lp ++ seg ++ ['/']) := by
  obtain ⟨t, ht⟩ := hpre
  have hk : k = lp ++ (seg ++ '/' :: t) := by
    rw [← ht]
    simp [List.append_assoc]
  have hlpre : lp.isPrefixOf k :=
    List.isPrefixOf_iff_prefix.mpr ⟨seg ++ '/' :: t, hk.symm⟩
  have hdrop : k.drop lp.length = seg ++ '/' :: t := by
    rw [hk, List.drop_left]
  unfold dirEntryOf
  rw [if_pos hlpre, hdrop]
  have hsl : '/' ∈ seg ++ '/' :: t := List.mem_append.mpr (Or.inr (by simp))
  rw [if_pos hsl]
  have htw : (seg ++ '/' :: t).takeWhile (· ≠ '/') = seg := by
    rw [takeWhile_append_all _ seg _ (fun c hc => by
      simp only [decide_eq_true_eq]
      exact fun he => hseg (he ▸ hc))]
    simp [List.takeWhile_cons]
  rw [htw]

theorem mem_dedupFirst : ∀ (seen l : List GoStr) (x : GoStr),
    x ∈ dedupFirst seen l ↔ x ∈ l ∧ x ∉ seen
  | _, [], x => by simp [dedupFirst]
  | seen, y :: l, x => by
    by_cases hy : y ∈ seen
    · unfold dedupFirst
      rw [if_pos hy, mem_dedupFirst seen l x]
      constructor
      · exact fun ⟨h1, h2⟩ => ⟨List.mem_cons.mpr (Or.inr h1), h2⟩
      · rintro ⟨h1, h2⟩
        rcases List.mem_cons.mp h1 with rfl | h1
        · exact absurd hy h2
        · exact ⟨h1, h2⟩
    · unfold dedupFirst
      rw [if_neg hy, List.mem_cons, mem_dedupFirst (y :: seen) l x]
      constructor
      · rintro (rfl | ⟨h1, h2⟩)
        · exact ⟨by simp, hy⟩
        · exact ⟨List.mem_cons.mpr (Or.inr h1),
            fun hm => h2 (List.mem_cons.mpr (Or.inr hm))⟩
      · rintro ⟨h1, h2⟩
        rcases List.mem_cons.mp h1 with rfl | h1
        · exact Or.inl rfl
        · by_cases hxy : x = y
          · exact Or.inl hxy
          · exact Or.inr ⟨h1, fun hm => (List.mem_cons.mp hm).elim hxy h2⟩

theorem mem_dirEntries (ks : List GoStr) (lp d : GoStr) :
    d ∈ dirEntries ks lp ↔ ∃ k, k ∈ ks ∧ dirEntryOf lp k = some d := by
  unfold dirEntries
  rw [mem_dedupFirst]
  simp [List.mem_filterMap]

theorem dirEntries_shape {ks : List GoStr} {lp d : GoStr} (h : d ∈ dirEntries ks lp) :
    (∃ k, k ∈ ks ∧ d <+: k) ∧ lp <+: d ∧ d.getLast? = some '/' ∧
      slashCount d = slashCount lp + 1 := by
  obtain ⟨k, hk, hde⟩ := (mem_dirEntries ks lp d).mp h
  obtain ⟨seg, hseg, hd, hpre⟩ := dirEntryOf_some_shape hde
  subst hd
  refine ⟨⟨k, hk, hpre⟩, ⟨seg ++ ['/'], by simp [List.append_assoc]⟩, ?_, ?_⟩
  · rw [List.getLast?_append_cons]
    rfl
  · unfold slashCount
    rw [List.count_append, List.count_append, List.count_eq_zero.mpr hseg]
    rfl

theorem walkAux_sound (ks : List GoStr) (maxD : Int) :
    ∀ (fuel : Nat) (lp : GoStr) (cur : Int) (d : GoStr),
      d ∈ walkAux ks maxD fuel lp cur →
      ((0 : Int) ≤ maxD → cur ≤ maxD) →
      (∃ k, k ∈ ks ∧ d <+: k) ∧ lp <+: d ∧ d.getLast? = some '/' ∧
        ∃ r : Nat, slashCount d = slashCount lp + r + 1 ∧
          ((0 : Int) ≤ maxD → cur + r ≤ maxD)
  | 0, lp, cur, d, hmem, _ => by simp [walkAux] at hmem
  | fuel + 1, lp, cur, d, hmem, hcur => by
    unfold walkAux at hmem
    obtain ⟨e, he, hd⟩ := List.mem_flatMap.mp hmem
    obtain ⟨hek, hlpe, hlast, hcount⟩ := dirEntries_shape he
    rcases List.mem_cons.mp hd with rfl | hd2
    · refine ⟨hek, hlpe, hlast, 0, by omega, ?_⟩
      intro h0
      have := hcur h0
      push_cast
      omega
    · by_cases hcond : maxD < 0 ∨ cur < maxD
      · rw [if_pos hcond] at hd2
        have hcur' : (0 : Int) ≤ maxD → cur + 1 ≤ maxD := by
          intro h0
          rcases hcond with hlt | hlt <;> omega
        obtain ⟨hk', hed, hlast', r', hcount', hbud'⟩ :=
          walkAux_sound ks maxD fuel e (cur + 1) d hd2 hcur'
        refine ⟨hk', hlpe.trans hed, hlast', r' + 1, by omega, ?_⟩
        intro h0
        have := hbud' h0
        push_cast at this ⊢
        omega
      · rw [if_neg hcond] at hd2
        cases hd2

theorem walkAux_complete (ks : List GoStr) (maxD : Int) :
    ∀ (fuel : Nat) (lp : GoStr) (cur : Int) (mid : GoStr),
      mid ≠ [] → mid.getLast? = some '/' →
      (∃ k, k ∈ ks ∧ (lp ++ mid) <+: k) →
      slashCount mid ≤ fuel →
      (maxD < 0 ∨ cur + slashCount mid ≤ maxD + 1) →
      (lp ++ mid) ∈ walkAux ks maxD fuel lp cur
  | 0, _, _, mid, hne, hlast, _, hfuel, _ => by
    exfalso
    have h1 : 0 < slashCount mid :=
      List.count_pos_iff.mpr (slash_mem_of_ends mid hne hlast)
    omega
  | fuel + 1, lp, cur, mid, hne, hlast, hk, hfuel, hbud => by
    obtain ⟨k, hkmem, hkpre⟩ := hk
    have hsl : '/' ∈ mid := slash_mem_of_ends mid hne hlast
    obtain ⟨hsplit, hnosl⟩ := split_at_first_slash mid hsl
    have hmid2 : lp ++ mid
        = (lp ++ mid.takeWhile (· ≠ '/') ++ ['/'])
          ++ ((mid.dropWhile (· ≠ '/')).tail) := by
      conv_lhs => rw [← hsplit]
      simp [List.append_assoc]
    have hepre : (lp ++ mid.takeWhile (· ≠ '/') ++ ['/']) <+: k :=
      List.IsPrefix.trans ⟨(mid.dropWhile (· ≠ '/')).tail, hmid2.symm⟩ hkpre
    have he : (lp ++ mid.takeWhile (· ≠ '/') ++ ['/']) ∈ dirEntries ks lp :=
      (mem_dirEntries ks lp _).mpr
        ⟨k, hkmem, dirEntryOf_some_intro lp k _ hnosl hepre⟩
    have hcountmid : slashCount mid
        = slashCount ((mid.dropWhile (· ≠ '/')).tail) + 1 := by
      unfold slashCount
      conv_lhs => rw [← hsplit]
      rw [List.count_append, List.count_eq_zero.mpr hnosl, List.count_cons_self]
      omega
    by_cases htl : (mid.dropWhile (· ≠ '/')).tail = []
    · have hd : lp ++ mid = lp ++ mid.takeWhile (· ≠ '/') ++ ['/'] := by
        rw [hmid2, htl, List.append_nil]
      unfold walkAux
      refine List.mem_flatMap.mpr ⟨_, he, ?_⟩
      rw [hd]
      exact List.mem_cons_self _ _
    · have htlast : ((mid.dropWhile (· ≠ '/')).tail).getLast? = some '/' := by
        have hx : mid = (mid.takeWhile (· ≠ '/') ++ ['/'])
            ++ (mid.dropWhile (· ≠ '/')).tail := by
          conv_lhs => rw [← hsplit]
          simp [List.append_assoc]
        rw [hx, List.getLast?_append_of_ne_nil _ htl] at hlast
        exact hlast
      have htlcount : 0 < slashCount ((mid.dropWhile (· ≠ '/')).tail) :=
        List.count_pos_iff.mpr (slash_mem_of_ends _ htl htlast)
      have hcond : maxD < 0 ∨ cur < maxD := by
        rcases hbud with hlt | hle
        · exact Or.inl hlt
        · right
          omega
      have hrec := walkAux_complete ks maxD fuel
        (lp ++ mid.takeWhile (· ≠ '/') ++ ['/']) (cur + 1)
        ((mid.dropWhile (· ≠ '/')).tail) htl htlast
        ⟨k, hkmem, by rw [← hmid2]; exact hkpre⟩
        (by omega)
        (by
          rcases hbud with hlt | hle
          · exact Or.inl hlt
          · right
            omega)
      unfold walkAux
      refine List.mem_flatMap.mpr ⟨_, he, ?_⟩
      rw [if_pos hcond, hmid2]
      exact List.mem_cons.mpr (Or.inr hrec)

theorem mem_le_foldr_max (k : GoStr) : ∀ ks : List GoStr, k ∈ ks →
    k.length ≤ ks.foldr (fun k m => max k.length m) 0
  | [], hk => absurd hk (by simp)
  | a :: t, hk => by
    rcases List.mem_cons.mp hk with rfl | h
    · exact le_max_left _ _
    · exact le_trans (mem_le_foldr_max k t h) (le_max_right _ _)

theorem length_lt_fuelOf (ks : List GoStr) (k : GoStr) (hk : k ∈ ks) :
    k.length < fuelOf ks := by
  unfold fuelOf
  have := mem_le_foldr_max k ks hk
  omega

theorem slashCount_le_fuel {ks : List GoStr} {d k : GoStr} (hk : k ∈ ks) (hdk : d <+: k) :
    slashCount d ≤ fuelOf ks := by
  obtain ⟨t, ht⟩ := hdk
  have h1 : slashCount d ≤ d.length := List.count_le_length '/' d
  have h2 : d.length ≤ k.length := by
    have := congrArg List.length ht
    simp only [List.length_append] at this
    omega
  have h3 := length_lt_fuelOf ks k hk
  omega

/-- C4 as amended: the depth budget of `ListDirN` behaves as the claim says
once the traversal root is accounted for.  Because the bucket is opened
scoped to `dir` and the walk then lists with prefix `dir` again, the stated
child/grandchild/full-subtree semantics hold for `dir = ""` (for a nonempty
`dir` the walk is rooted at `dir/dir`, see the counterexample): over the keys
of the scoped bucket, depth `0` returns exactly the directory markers one
level deep (`slashCount d = 1`), depth `1` exactly those at most two levels
deep (children and grandchildren), and any negative depth exactly every
directory marker that is a prefix of some stored key — the full subtree. -/
theorem listDirN_root_depth (pfx : GoStr) (s : Store) (d : GoStr) :
    (d ∈ Blob.ListDirN pfx s [] [0] ↔
      d.getLast? = some '/' ∧ (∃ k, k ∈ flatList s (effPfx pfx []) ∧ d <+: k) ∧
        slashCount d = 1) ∧
    (d ∈ Blob.ListDirN pfx s [] [1] ↔
      d.getLast? = some '/' ∧ (∃ k, k ∈ flatList s (effPfx pfx []) ∧ d <+: k) ∧
        slashCount d ≤ 2) ∧
    (∀ n : Int, n < 0 →
      (d ∈ Blob.ListDirN pfx s [] [n] ↔
        d.getLast? = some '/' ∧ ∃ k, k ∈ flatList s (effPfx pfx []) ∧ d <+: k)) := by
  have hunfold : ∀ m : Int, Blob.ListDirN pfx s [] [m]
      = walkAux (flatList s (effPfx pfx [])) m
          (fuelOf (flatList s (effPfx pfx []))) [] 0 := fun m => rfl
  refine ⟨?_, ?_, ?_⟩
  · rw [hunfold]
    constructor
    · intro hmem
      obtain ⟨⟨k, hk, hpre⟩, _, hlast, r, hcount, hbud⟩ :=
        walkAux_sound _ 0 _ [] 0 d hmem (fun _ => le_refl 0)
      have hr := hbud (le_refl 0)
      refine ⟨hlast, ⟨k, hk, hpre⟩, ?_⟩
      have hr0 : r = 0 := by omega
      have h0 : slashCount ([] : GoStr) = 0 := rfl
      rw [h0] at hcount
      omega
    · rintro ⟨hlast, ⟨k, hk, hpre⟩, hc1⟩
      have hne : d ≠ [] := ne_nil_of_ends_slash d hlast
      have := walkAux_complete (flatList s (effPfx pfx [])) 0 _ [] 0 d hne hlast
        ⟨k, hk, by rwa [List.nil_append]⟩
        (slashCount_le_fuel hk hpre)
        (by right; rw [hc1]; norm_num)
      simpa using this
  · rw [hunfold]
    constructor
    · intro hmem
      obtain ⟨⟨k, hk, hpre⟩, _, hlast, r, hcount, hbud⟩ :=
        walkAux_sound _ 1 _ [] 0 d hmem (fun _ => by norm_num)
      have hr := hbud (by norm_num)
      refine ⟨hlast, ⟨k, hk, hpre⟩, ?_⟩
      have h0 : slashCount ([] : GoStr) = 0 := rfl
      rw [h0] at hcount
      omega
    · rintro ⟨hlast, ⟨k, hk, hpre⟩, hc2⟩
      have hne : d ≠ [] := ne_nil_of_ends_slash d hlast
      have := walkAux_complete (flatList s (effPfx pfx [])) 1 _ [] 0 d hne hlast
        ⟨k, hk, by rwa [List.nil_append]⟩
        (slashCount_le_fuel hk hpre)
        (by right; push_cast; omega)
      simpa using this
  · intro n hn
    rw [hunfold]
    constructor
    · intro hmem
      obtain ⟨⟨k, hk, hpre⟩, _, hlast, _⟩ :=
        walkAux_sound _ n _ [] 0 d hmem (fun h0 => absurd h0 (by omega))
      exact ⟨hlast, ⟨k, hk, hpre⟩⟩
    · rintro ⟨hlast, ⟨k, hk, hpre⟩⟩
      have hne : d ≠ [] := ne_nil_of_ends_slash d hlast
      have := walkAux_complete (flatList s (effPfx pfx [])) n _ [] 0 d hne hlast
        ⟨k, hk, by rwa [List.nil_append]⟩
        (slashCount_le_fuel hk hpre)
        (Or.inl hn)
      simpa using this

/-- Witness for the amended C4: over a store with the single key
`a/b/c.txt`, the full-subtree traversal contains the two-level marker
`a/b/` and the depth-0 traversal contains the child marker `a/`. -/
theorem listDirN_root_depth_witness :
    ("a/b/".toList ∈ Blob.ListDirN [] [("a/b/c.txt".toList, [1])] [] [-1]) ∧
    ("a/".toList ∈ Blob.ListDirN [] [("a/b/c.txt".toList, [1])] [] [0]) :=
  ⟨((listDirN_root_depth [] [("a/b/c.txt".toList, [1])] "a/b/".toList).2.2 (-1)
      (by norm_num)).mpr (by decide),
   ((listDirN_root_depth [] [("a/b/c.txt".toList, [1])] "a/".toList).1).mpr (by decide)⟩
